import Mathlib

/-! Grease pencil stroke smoothing and the `gpu.state` bindings.

A shallow embedding of

* `source/blender/editors/grease_pencil/intern/grease_pencil_edit.cc`
  (`gaussian_blur_1D`, `smooth_curve_attribute`, `grease_pencil_stroke_smooth_exec`), and
* `source/blender/python/gpu/gpu_py_state.c`
  (`blend_set`, `blend_get`, `depth_test_set`, `depth_test_get`, `clip_distances_set`,
  the method table),

followed by theorems about them.

Conventions of the embedding.

* Attribute values (`float`, and each component of a `float3`, whose arithmetic is
  componentwise) are rationals: all statements are about exact arithmetic.
* `int64_t` indices are integers; `%` is the truncating `Int.tmod`, `/` the truncating
  `Int.tdiv`. The iteration count is a natural number (`IndexRange(iterations)` asserts a
  size that is not negative); no product formed from it comes near `2^63` for a count a loop
  can run through.
* A span is a list; an index that is read is read with `List.getD _ _ 0`.
* The loops are modelled in the rationals. The one place where the code divides by a number
  that can be zero before the normalization is the initial `w2` (`keep_shape` with
  `iterations = 0`): `w2_init_checked` has no value there, and `gaussian_blur_1D_general`
  marks the values that are not numbers.
* A parallel loop is a sequential loop: every index (every curve) is written by one
  iteration only.
-/

namespace Blender


/-! ## `gaussian_blur_1D` -/

/-- The two values of the C math library that `gaussian_blur_1D` uses and that have no exact
rational value: the constant `M_SQRT3` and the function `exp`. They are parameters of the
model (they only enter the initial value of `w2` when `keep_shape` is set). -/
structure LibM where
  M_SQRT3 : ℚ
  exp : ℚ → ℚ

/-- The value `n_half` of the weight initialization. -/
def n_half (keep_shape : Bool) (iterations : ℤ) : ℤ :=
  if keep_shape then (iterations * iterations).tdiv 8 + iterations
  else (iterations * iterations).tdiv 4 + 2 * iterations + 12

/-- Initial value of `w`. -/
def w_init (keep_shape : Bool) : ℚ :=
  if keep_shape then 2 else 1

/-- Initial value of `w2`, when it is a number. With `keep_shape` the code divides
`2 * iterations * iterations` by `double(n_half * 3)`; for `n_half = 0` (that is for
`iterations = 0`) this is zero divided by zero, and neither the argument of `exp` nor `w2`
is a number: there is no value then. -/
def w2_init_checked (m : LibM) (keep_shape : Bool) (iterations : ℤ) : Option ℚ :=
  if keep_shape then
    if n_half keep_shape iterations * 3 = 0 then none
    else
      some ((1 / m.M_SQRT3) *
        m.exp (((2 * iterations * iterations : ℤ) : ℚ) /
          ((n_half keep_shape iterations * 3 : ℤ) : ℚ)))
  else some 0

/-- Initial value of `w2` in the model of the loops. Where `w2` is not a number
(`w2_init_checked` has no value: `keep_shape` with `iterations = 0`) the loops of the model
carry `0` in its place; the values they give for points that are not fixed end points are
then no values of the code, which `gaussian_blur_1D_general` tells apart. -/
def w2_init (m : LibM) (keep_shape : Bool) (iterations : ℤ) : ℚ :=
  (w2_init_checked m keep_shape iterations).getD 0

/-- The lambda `is_end_and_fixed`. -/
def is_end_and_fixed (smooth_ends is_cyclic : Bool) (last_pt : ℤ) (index : ℤ) : Bool :=
  !smooth_ends && !is_cyclic && (index == 0 || index == last_pt)

/-- The index `before` that is used to read `src`. -/
def before_index (is_cyclic : Bool) (total_points index offset : ℤ) : ℤ :=
  let before := index - offset
  if is_cyclic then (before.tmod total_points + total_points).tmod total_points
  else max before 0

/-- The index `after` that is used to read `src`. -/
def after_index (is_cyclic : Bool) (total_points index offset : ℤ) : ℤ :=
  let after := index + offset
  let last_pt := total_points - 1
  if is_cyclic then after.tmod total_points
  else min after last_pt

/-- The weight `w_before` of one index at one step, from `w - w2`. -/
def w_before_at (smooth_ends is_cyclic : Bool) (index offset : ℤ) (w w2 : ℚ) : ℚ :=
  let w_before := w - w2
  let before := index - offset
  if is_cyclic then w_before
  else if !smooth_ends && before < 0 then w_before * (((-before : ℤ) : ℚ) / ((index : ℤ) : ℚ))
  else w_before

/-- The weight `w_after` of one index at one step, from `w - w2`. -/
def w_after_at (smooth_ends is_cyclic : Bool) (total_points index offset : ℤ) (w w2 : ℚ) : ℚ :=
  let w_after := w - w2
  let after := index + offset
  let last_pt := total_points - 1
  if is_cyclic then w_after
  else if !smooth_ends && after > last_pt then
    w_after * (((after - (total_points - 1) : ℤ) : ℚ) / ((total_points - 1 - index : ℤ) : ℚ))
  else w_after

/-- The mutable state of the step loop: `dst`, `total_weight`, `w` and `w2`. -/
structure BlurState where
  dst : List ℚ
  total_weight : List ℚ
  w : ℚ
  w2 : ℚ

/-- Body of the step loop for one `index`: the new `dst[index]` and `total_weight[index]`,
from their current values `d` and `t`. -/
def blur_point (src : List ℚ) (smooth_ends is_cyclic : Bool) (w w2 : ℚ) (offset : ℤ)
    (index : ℕ) (d t : ℚ) : ℚ × ℚ :=
  let total_points : ℤ := src.length
  let last_pt := total_points - 1
  if is_end_and_fixed smooth_ends is_cyclic last_pt index then (d, t)
  else
    let w_before := w_before_at smooth_ends is_cyclic index offset w w2
    let w_after := w_after_at smooth_ends is_cyclic total_points index offset w w2
    let before := before_index is_cyclic total_points index offset
    let after := after_index is_cyclic total_points index offset
    let bval := src.getD before.toNat 0
    let aval := src.getD after.toNat 0
    let cval := src.getD index 0
    (d + (bval - cval) * w_before + (aval - cval) * w_after, t + w_before + w_after)

/-- One pass of the step loop (`step` in `IndexRange(iterations)`): every index is updated
with the current weights, then the weights are advanced. -/
def blur_step (src : List ℚ) (iterations : ℕ) (smooth_ends keep_shape is_cyclic : Bool)
    (st : BlurState) (step : ℕ) : BlurState :=
  let nh := n_half keep_shape iterations
  let offset : ℤ := (iterations : ℤ) - (step : ℤ)
  { dst := (List.range st.dst.length).map fun index =>
      (blur_point src smooth_ends is_cyclic st.w st.w2 offset index
        (st.dst.getD index 0) (st.total_weight.getD index 0)).1
    total_weight := (List.range st.dst.length).map fun index =>
      (blur_point src smooth_ends is_cyclic st.w st.w2 offset index
        (st.dst.getD index 0) (st.total_weight.getD index 0)).2
    w := st.w * (((nh + offset : ℤ) : ℚ) / ((nh + 1 - offset : ℤ) : ℚ))
    w2 := st.w2 * (((nh * 3 + offset : ℤ) : ℚ) / ((nh * 3 + 1 - offset : ℤ) : ℚ)) }

/-- The state before the step loop: `dst` set to zero except at fixed end points,
`total_weight` all zero, and the initial weights. -/
def blur_init (m : LibM) (src : List ℚ) (iterations : ℕ)
    (smooth_ends keep_shape is_cyclic : Bool) (dst : List ℚ) : BlurState :=
  let total_points : ℤ := src.length
  let last_pt := total_points - 1
  { dst := (List.range dst.length).map fun (index : ℕ) =>
      if is_end_and_fixed smooth_ends is_cyclic last_pt index then dst.getD index 0 else 0
    total_weight := List.replicate src.length 0
    w := w_init keep_shape
    w2 := w2_init m keep_shape iterations }

/-- The state after the step loop. -/
def blur_loop (m : LibM) (src : List ℚ) (iterations : ℕ)
    (smooth_ends keep_shape is_cyclic : Bool) (dst : List ℚ) : BlurState :=
  (List.range iterations).foldl (blur_step src iterations smooth_ends keep_shape is_cyclic)
    (blur_init m src iterations smooth_ends keep_shape is_cyclic dst)

/-- The value of `total_weight[index]` that `dst[index]` is divided by in the
normalization loop. -/
def final_total_weight (m : LibM) (src : List ℚ) (iterations : ℕ)
    (smooth_ends keep_shape is_cyclic : Bool) (dst : List ℚ) (index : ℕ) : ℚ :=
  let st := blur_loop m src iterations smooth_ends keep_shape is_cyclic dst
  st.total_weight.getD index 0 + (st.w - st.w2)

/-- The function `gaussian_blur_1D` (the template, at a scalar `T`): the content of `dst`
on return. -/
def gaussian_blur_1D (m : LibM) (src : List ℚ) (iterations : ℕ) (influence : ℚ)
    (smooth_ends keep_shape is_cyclic : Bool) (dst : List ℚ) : List ℚ :=
  if src.length = 1 then dst
  else
    let total_points : ℤ := src.length
    let last_pt := total_points - 1
    let st := blur_loop m src iterations smooth_ends keep_shape is_cyclic dst
    (List.range dst.length).map fun (index : ℕ) =>
      if is_end_and_fixed smooth_ends is_cyclic last_pt index then st.dst.getD index 0
      else
        src.getD index 0 + influence * st.dst.getD index 0 /
          final_total_weight m src iterations smooth_ends keep_shape is_cyclic dst index

/-! ## `smooth_curve_attribute` -/

/-- An `IndexRange`: the indices `start`, ..., `start + size - 1`. -/
structure IndexRange where
  start : ℕ
  size : ℕ
  deriving DecidableEq, Repr

/-- Modelled from the spec: `OffsetIndices<int>::operator[]` (`BLI_offset_indices.hh`, not part
of this slice). The points of curve `curve_i` are the range from `offsets[curve_i]` up to,
not including, `offsets[curve_i + 1]`. -/
def points_by_curve_at (offsets : List ℕ) (curve_i : ℕ) : IndexRange :=
  { start := offsets.getD curve_i 0
    size := offsets.getD (curve_i + 1) 0 - offsets.getD curve_i 0 }

/-- Modelled from the spec: `IndexMask::from_bools(points, bools, memory)`
(`BLI_index_mask.hh`, not part of this slice). The mask of the indices of `points` at
which `bools` is true, in increasing order: the selection mask of a curve. -/
def from_bools (points : IndexRange) (bools : ℕ → Bool) : List ℕ :=
  (List.range' points.start points.size).filter bools

/-- Modelled from the spec: `IndexMask::to_ranges()` (`BLI_index_mask.hh`, not part of this
slice). The maximal runs of consecutive indices of a mask, in increasing order. -/
def to_ranges : List ℕ → List IndexRange
  | [] => []
  | i :: rest =>
    match to_ranges rest with
    | [] => [{ start := i, size := 1 }]
    | r :: rs =>
      if r.start = i + 1 then { start := i, size := r.size + 1 } :: rs
      else { start := i, size := 1 } :: r :: rs

/-- The content of `data.slice(range)`. -/
def slice (data : List ℚ) (range : IndexRange) : List ℚ :=
  (data.drop range.start).take range.size

/-- The buffer `data` after the slice `data.slice(range)` has been given the content
`values`. -/
def write_slice (data : List ℚ) (range : IndexRange) (values : List ℚ) : List ℚ :=
  data.take range.start ++ values ++ data.drop (range.start + values.length)

/-- Body of the loop over the selection ranges of one curve: the slice is copied to
`orig_data` and blurred from the copy. -/
def smooth_range (m : LibM) (iterations : ℕ) (influence : ℚ)
    (smooth_ends keep_shape is_cyclic : Bool) (data : List ℚ) (range : IndexRange) : List ℚ :=
  let dst_data := slice data range
  let orig_data := dst_data
  write_slice data range
    (gaussian_blur_1D m orig_data iterations influence smooth_ends keep_shape is_cyclic dst_data)

/-- Body of the loop over the curves. -/
def smooth_curve (m : LibM) (points_by_curve : List ℕ) (selection cyclic : ℕ → Bool)
    (iterations : ℕ) (influence : ℚ) (smooth_ends keep_shape : Bool)
    (data : List ℚ) (curve_i : ℕ) : List ℚ :=
  let points := points_by_curve_at points_by_curve curve_i
  let selection_mask := from_bools points selection
  if selection_mask.isEmpty then data
  else
    (to_ranges selection_mask).foldl
      (smooth_range m iterations influence smooth_ends keep_shape (cyclic curve_i)) data

/-- The function `smooth_curve_attribute`: the content of the attribute span on return.
`curves_num` is the size of `curves.curves_range()`; the arrays `selection` and `cyclic`
(`VArray<bool>`) are functions of the index. The curves are visited in increasing order
(the parallel loop gives each curve to one thread). -/
def smooth_curve_attribute (m : LibM) (curves_num : ℕ) (data : List ℚ)
    (points_by_curve : List ℕ) (selection cyclic : ℕ → Bool)
    (iterations : ℕ) (influence : ℚ) (smooth_ends keep_shape : Bool) : List ℚ :=
  if data.isEmpty then data
  else
    (List.range curves_num).foldl
      (smooth_curve m points_by_curve selection cyclic iterations influence smooth_ends
        keep_shape) data

/-! ## Iterated neighbour averaging (the description of the filter in the doc comment) -/

/-- One averaging step on a cyclic sequence, from the words of the doc comment of
`gaussian_blur_1D`: every value becomes `(x[i-1] + 2*x[i] + x[i+1]) / 4`, indices modulo
the size. This is the binomial kernel of order `2`. -/
def average_neighbors_step (x : List ℚ) : List ℚ :=
  (List.range x.length).map fun i =>
    (x.getD ((i + x.length - 1) % x.length) 0 + 2 * x.getD i 0 +
      x.getD ((i + 1) % x.length) 0) / 4

/-- The averaging step applied `k` times: the binomial kernel of order `n = 2 * k`. -/
def average_neighbors (k : ℕ) (x : List ℚ) : List ℚ :=
  average_neighbors_step^[k] x

/-! ## Cyclic neighbours of a point (the statement about the closed curve) -/

/-- Two attribute buffers agree at point `i` of the curve that starts at `start` and has `N`
points, and at its neighbours `(i - k) mod N` and `(i + k) mod N` around the closed curve,
for `k = 1, ..., iterations`. -/
def agree_on_cyclic_neighbors (data data' : List ℚ) (start N i iterations : ℕ) : Prop :=
  data.getD (start + i) 0 = data'.getD (start + i) 0 ∧
  ∀ k : ℕ, 1 ≤ k → k ≤ iterations →
    data.getD (start + (((i : ℤ) - (k : ℤ)) % (N : ℤ)).toNat) 0 =
      data'.getD (start + (((i : ℤ) - (k : ℤ)) % (N : ℤ)).toNat) 0 ∧
    data.getD (start + (((i : ℤ) + (k : ℤ)) % (N : ℤ)).toNat) 0 =
      data'.getD (start + (((i : ℤ) + (k : ℤ)) % (N : ℤ)).toNat) 0

/-- A rational instance of the math library values, for evaluating the model on concrete
inputs: `M_SQRT3` to three decimals and the first terms of the series of `exp`. -/
def libm_rational : LibM :=
  { M_SQRT3 := 1732 / 1000
    exp := fun x => 1 + x + x * x / 2 }

/-! ## `grease_pencil_stroke_smooth_exec` -/

/-- A `float3` value; its arithmetic is componentwise. -/
structure float3 where
  x : ℚ
  y : ℚ
  z : ℚ

/-- The function `smooth_curve_attribute` on a `float3` attribute: `gaussian_blur_1D` is
instantiated at `float3`, whose operations are componentwise, so every component is
smoothed as a scalar attribute. -/
def smooth_curve_attribute_float3 (m : LibM) (curves_num : ℕ) (data : List float3)
    (points_by_curve : List ℕ) (selection cyclic : ℕ → Bool)
    (iterations : ℕ) (influence : ℚ) (smooth_ends keep_shape : Bool) : List float3 :=
  let smooth := fun (component : List ℚ) =>
    smooth_curve_attribute m curves_num component points_by_curve selection cyclic iterations
      influence smooth_ends keep_shape
  List.zipWith3 float3.mk (smooth (data.map float3.x)) (smooth (data.map float3.y))
    (smooth (data.map float3.z))

/-- Modelled from the spec: a drawing (`bke::greasepencil::Drawing`, not part of this slice)
as far as the operator uses it. Its strokes are a curves geometry with the offsets of the
curves, the cyclic flag of every curve, the point attributes `position`, `opacity` and
`radius` (the last two are absent when they are not stored as a span) and the point
selection (the attribute `.selection`, or true everywhere when there is none).
`editable_at` tells whether `foreach_editable_drawing` visits the drawing at a frame. -/
structure Drawing where
  points_by_curve : List ℕ
  cyclic : ℕ → Bool
  selection : ℕ → Bool
  position : List float3
  opacity : Option (List ℚ)
  radius : Option (List ℚ)
  editable_at : ℤ → Bool

/-- What the operator does to the application outside of the drawings. -/
inductive Effect where
  /-- The call `DEG_id_tag_update(&grease_pencil.id, ID_RECALC_GEOMETRY)`. -/
  | tag_recalc_geometry
  /-- The call `WM_event_add_notifier(C, NC_GEOM | ND_DATA, &grease_pencil)`. -/
  | notifier_geom_data
  deriving DecidableEq, Repr

/-- Modelled from the spec: the part of the context `bContext` the operator reads and
writes: the current frame of the scene, the drawings of the active grease pencil object,
and the tags and notifiers issued so far. -/
structure Context where
  cfra : ℤ
  drawings : List Drawing
  effects : List Effect

/-- The properties of the operator, as `GREASE_PENCIL_OT_stroke_smooth` defines them. -/
structure SmoothProperties where
  iterations : ℕ
  factor : ℚ
  keep_shape : Bool
  smooth_ends : Bool
  smooth_position : Bool
  smooth_radius : Bool
  smooth_opacity : Bool

/-- The return values of an operator callback (`OPERATOR_*` of the window manager, not part
of this slice). -/
inductive OperatorReturn where
  | OPERATOR_RUNNING_MODAL
  | OPERATOR_CANCELLED
  | OPERATOR_FINISHED
  | OPERATOR_PASS_THROUGH
  deriving DecidableEq, Repr

/-- The lambda given to `foreach_editable_drawing`: one drawing is smoothed. -/
def smooth_drawing (m : LibM) (op : SmoothProperties) (drawing : Drawing) : Drawing :=
  let curves_num := drawing.points_by_curve.length - 1
  if drawing.position.length = 0 then drawing
  else
    let position :=
      if op.smooth_position then
        smooth_curve_attribute_float3 m curves_num drawing.position drawing.points_by_curve
          drawing.selection drawing.cyclic op.iterations op.factor op.smooth_ends op.keep_shape
      else drawing.position
    let opacity :=
      if op.smooth_opacity then
        drawing.opacity.map fun opacities =>
          smooth_curve_attribute m curves_num opacities drawing.points_by_curve
            drawing.selection drawing.cyclic op.iterations op.factor op.smooth_ends false
      else drawing.opacity
    let radius :=
      if op.smooth_radius then
        drawing.radius.map fun radii =>
          smooth_curve_attribute m curves_num radii drawing.points_by_curve
            drawing.selection drawing.cyclic op.iterations op.factor op.smooth_ends false
      else drawing.radius
    { drawing with position := position, opacity := opacity, radius := radius }

/-- The function `grease_pencil_stroke_smooth_exec`: the value returned and the context
after the call. -/
def grease_pencil_stroke_smooth_exec (m : LibM) (C : Context) (op : SmoothProperties) :
    OperatorReturn × Context :=
  if !(op.smooth_position || op.smooth_radius || op.smooth_opacity) then
    (OperatorReturn.OPERATOR_FINISHED, C)
  else
    let drawings := C.drawings.map fun drawing =>
      if drawing.editable_at C.cfra then smooth_drawing m op drawing else drawing
    (OperatorReturn.OPERATOR_FINISHED,
      { C with
        drawings := drawings
        effects := C.effects ++ [Effect.tag_recalc_geometry, Effect.notifier_geom_data] })

/-- A context for evaluating the operator on a concrete input: one editable drawing with one
open curve of three points, all selected, with positions and radii. -/
def example_context : Context :=
  { cfra := 1
    drawings :=
      [{ points_by_curve := [0, 3]
         cyclic := fun _ => false
         selection := fun _ => true
         position := [⟨0, 0, 0⟩, ⟨1, 2, 0⟩, ⟨2, 0, 0⟩]
         opacity := Option.none
         radius := some [1, 3, 1]
         editable_at := fun _ => true }]
    effects := [] }

/-! ## The module `gpu.state` (`gpu_py_state.c`) -/

/-- Modelled from the spec: the enum `eGPUBlend` of `GPU_state.h` (not part of this slice).
Its constants are pairwise distinct. -/
inductive eGPUBlend where
  | GPU_BLEND_NONE
  | GPU_BLEND_ALPHA
  | GPU_BLEND_ALPHA_PREMULT
  | GPU_BLEND_ADDITIVE
  | GPU_BLEND_ADDITIVE_PREMULT
  | GPU_BLEND_MULTIPLY
  | GPU_BLEND_SUBTRACT
  | GPU_BLEND_INVERT
  | GPU_BLEND_OIT
  | GPU_BLEND_BACKGROUND
  | GPU_BLEND_CUSTOM
  deriving DecidableEq, Repr

/-- Modelled from the spec: the enum `eGPUDepthTest` of `GPU_state.h` (not part of this
slice). Its constants are pairwise distinct. -/
inductive eGPUDepthTest where
  | GPU_DEPTH_NONE
  | GPU_DEPTH_ALWAYS
  | GPU_DEPTH_LESS
  | GPU_DEPTH_LESS_EQUAL
  | GPU_DEPTH_EQUAL
  | GPU_DEPTH_GREATER
  | GPU_DEPTH_GREATER_EQUAL
  deriving DecidableEq, Repr

open eGPUBlend eGPUDepthTest

/-- The table `pygpu_state_blend_items` (value, identifier), without the terminating
`{0, NULL}`. -/
def pygpu_state_blend_items : List (eGPUBlend × String) :=
  [(GPU_BLEND_NONE, "NONE"),
   (GPU_BLEND_ALPHA, "ALPHA"),
   (GPU_BLEND_ALPHA_PREMULT, "ALPHA_PREMULT"),
   (GPU_BLEND_ADDITIVE, "ADDITIVE"),
   (GPU_BLEND_ADDITIVE_PREMULT, "ADDITIVE_PREMULT"),
   (GPU_BLEND_MULTIPLY, "MULTIPLY"),
   (GPU_BLEND_SUBTRACT, "SUBTRACT"),
   (GPU_BLEND_INVERT, "INVERT")]

/-- The table `pygpu_state_depthtest_items`, without the terminating `{0, NULL}`. -/
def pygpu_state_depthtest_items : List (eGPUDepthTest × String) :=
  [(GPU_DEPTH_NONE, "NONE"),
   (GPU_DEPTH_ALWAYS, "ALWAYS"),
   (GPU_DEPTH_LESS, "LESS"),
   (GPU_DEPTH_LESS_EQUAL, "LESS_EQUAL"),
   (GPU_DEPTH_EQUAL, "EQUAL"),
   (GPU_DEPTH_GREATER, "GREATER"),
   (GPU_DEPTH_GREATER_EQUAL, "GREATER_EQUAL")]

/-- A Python object, as far as the functions of the module tell objects apart. -/
inductive PyObject where
  | none
  | bool (b : Bool)
  | long (n : ℤ)
  | float (q : ℚ)
  | str (s : String)
  deriving DecidableEq

/-- The exception types that are raised. -/
inductive PyExc where
  | ValueError
  | TypeError
  | OverflowError
  deriving DecidableEq, Repr

/-- Modelled from the spec: the state of the GPU module (`GPU_state.h`, not part of this
slice) that the bound setters write and the bound getters read: a getter returns the value
last given to the setter. -/
structure GPUState where
  blend : eGPUBlend
  depth_test : eGPUDepthTest
  clip_distances : ℤ
  deriving DecidableEq

/-- The state a function of the module runs in: the GPU state and the error indicator of the
Python interpreter (an exception type with its message, when an exception is set). -/
structure PyState where
  gpu : GPUState
  error : Option (PyExc × String)
  deriving DecidableEq

/-- Modelled from the spec: `PyC_ParseStringEnum` of `py_capi_utils.c` (not part of this
slice), the enum-string mapping: the argument has to be a string; the value of the first
item of the table whose identifier is that string is found; without such an item, and for an
argument that is not a string, a `ValueError` is set and the parse fails. -/
def PyC_ParseStringEnum {α : Type} (items : List (α × String)) (value : PyObject)
    (st : PyState) : Option α × PyState :=
  match value with
  | PyObject.str s =>
    match items.find? (fun item => item.2 == s) with
    | some item => (some item.1, st)
    | Option.none =>
      (Option.none, { st with error := some (PyExc.ValueError, "expected a string in the items") })
  | _ => (Option.none, { st with error := some (PyExc.ValueError, "expected a string") })

/-- Modelled from the spec: `PyC_StringEnum_FindIDFromValue` of `py_capi_utils.c` (not part
of this slice): the identifier of the first item of the table with the value, or `NULL`. -/
def PyC_StringEnum_FindIDFromValue {α : Type} [DecidableEq α] (items : List (α × String))
    (value : α) : Option String :=
  (items.find? (fun item => item.1 == value)).map Prod.snd

/-- The function `pygpu_state_blend_set` (`blend_set`): the object returned (`NULL` is
absent) and the state after the call. -/
def pygpu_state_blend_set (st : PyState) (value : PyObject) : Option PyObject × PyState :=
  match PyC_ParseStringEnum pygpu_state_blend_items value st with
  | (Option.none, st') => (Option.none, st')
  | (some value_found, st') =>
    (some PyObject.none, { st' with gpu := { st'.gpu with blend := value_found } })

/-- The function `pygpu_state_blend_get` (`blend_get`). The string is absent when the table
has no identifier for the value (`PyUnicode_FromString` is given `NULL`). -/
def pygpu_state_blend_get (st : PyState) : Option PyObject × PyState :=
  let blend := st.gpu.blend
  ((PyC_StringEnum_FindIDFromValue pygpu_state_blend_items blend).map PyObject.str, st)

/-- The function `pygpu_state_depth_test_set` (`depth_test_set`). -/
def pygpu_state_depth_test_set (st : PyState) (value : PyObject) :
    Option PyObject × PyState :=
  match PyC_ParseStringEnum pygpu_state_depthtest_items value st with
  | (Option.none, st') => (Option.none, st')
  | (some value_found, st') =>
    (some PyObject.none, { st' with gpu := { st'.gpu with depth_test := value_found } })

/-- The function `pygpu_state_depth_test_get` (`depth_test_get`). -/
def pygpu_state_depth_test_get (st : PyState) : Option PyObject × PyState :=
  let test := st.gpu.depth_test
  ((PyC_StringEnum_FindIDFromValue pygpu_state_depthtest_items test).map PyObject.str, st)

/-- The C API function `PyLong_AsUnsignedLong` with a 64 bit `unsigned long`: the value of an
integer object from `0` to `2^64 - 1`; otherwise `(unsigned long)-1` with an
`OverflowError` (integer out of range) or a `TypeError` (not an integer) set. -/
def PyLong_AsUnsignedLong (value : PyObject) (st : PyState) : ℕ × PyState :=
  match value with
  | PyObject.long n =>
    if 0 ≤ n ∧ n < 2 ^ 64 then (n.toNat, st)
    else (2 ^ 64 - 1, { st with error := some (PyExc.OverflowError, "int out of range") })
  | _ => (2 ^ 64 - 1, { st with error := some (PyExc.TypeError, "an integer is required") })

/-- The conversion `(int)` of an `unsigned long`: the low 32 bits, read as two's
complement. -/
def int_of_unsigned_long (u : ℕ) : ℤ :=
  if u % 2 ^ 32 < 2 ^ 31 then ((u % 2 ^ 32 : ℕ) : ℤ) else ((u % 2 ^ 32 : ℕ) : ℤ) - 2 ^ 32

/-- The function `pygpu_state_clip_distances_set` (`clip_distances_set`). -/
def pygpu_state_clip_distances_set (st : PyState) (value : PyObject) :
    Option PyObject × PyState :=
  let parsed := PyLong_AsUnsignedLong value st
  let distances_enabled := int_of_unsigned_long parsed.1
  let st1 := parsed.2
  if distances_enabled = -1 then (Option.none, st1)
  else
    let st2 :=
      if distances_enabled > 6 then
        { st1 with error := some (PyExc.ValueError, "too many distances enabled, max is 6") }
      else st1
    (some PyObject.none, { st2 with gpu := { st2.gpu with clip_distances := distances_enabled } })

/-- The calling conventions that occur in the method table. -/
inductive MethFlags where
  | METH_O
  | METH_NOARGS
  | METH_VARARGS
  deriving DecidableEq, Repr

/-- An entry of the method table (`PyMethodDef`): the name the function is registered under,
the C function, the calling convention and the doc string. -/
structure PyMethodDef where
  ml_name : String
  ml_meth : String
  ml_flags : MethFlags
  ml_doc : String
  deriving DecidableEq, Repr

open MethFlags

/-- The table `pygpu_state__tp_methods`, without the terminating entry. Every doc string
(`PyDoc_STRVAR`) is cut after its first line, the `.. function::` directive that names the
function. -/
def pygpu_state__tp_methods : List PyMethodDef :=
  [⟨"blend_set", "pygpu_state_blend_set", METH_O, ".. function:: blend_set(mode)\n"⟩,
   ⟨"blend_get", "pygpu_state_blend_get", METH_NOARGS, ".. function:: blend_get()\n"⟩,
   ⟨"clip_distances_set", "pygpu_state_clip_distances_set", METH_O,
     ".. function:: clip_distances_set(distances_enabled)\n"⟩,
   ⟨"depth_test_set", "pygpu_state_depth_test_set", METH_O,
     ".. function:: depth_test_set(mode)\n"⟩,
   ⟨"depth_test_get", "pygpu_state_depth_test_get", METH_NOARGS,
     ".. function:: depth_test_get()\n"⟩,
   ⟨"depth_mask_set", "pygpu_state_depth_mask_set", METH_O,
     ".. function:: depth_mask_set(value)\n"⟩,
   ⟨"depth_mask_get", "pygpu_state_depth_mask_get", METH_NOARGS,
     ".. function:: depth_mask_get()\n"⟩,
   ⟨"viewport_set", "pygpu_state_viewport_set", METH_VARARGS,
     ".. function:: viewport_set(x, y, xsize, ysize)\n"⟩,
   ⟨"viewport_get", "pygpu_state_viewport_get", METH_NOARGS,
     ".. function:: viewport_get()\n"⟩,
   ⟨"scissor_set", "pygpu_state_scissor_set", METH_VARARGS,
     ".. function:: scissor_set(x, y, xsize, ysize)\n"⟩,
   ⟨"scissor_get", "pygpu_state_scissor_get", METH_NOARGS,
     ".. function:: scissor_get()\n"⟩,
   ⟨"scissor_test_set", "pygpu_state_scissor_test_set", METH_O,
     ".. function:: scissor_test_set(enable)\n"⟩,
   ⟨"line_width_set", "pygpu_state_line_width_set", METH_O,
     ".. function:: line_width_set(width)\n"⟩,
   ⟨"line_width_get", "pygpu_state_line_width_get", METH_NOARGS,
     ".. function:: line_width_get()\n"⟩,
   ⟨"point_size_set", "pygpu_state_point_size_set", METH_O,
     ".. function:: point_size_set(size)\n"⟩,
   ⟨"color_mask_set", "pygpu_state_color_mask_set", METH_VARARGS,
     ".. function:: color_mask_set(r, g, b, a)\n"⟩,
   ⟨"face_culling_set", "pygpu_state_face_culling_set", METH_O,
     ".. function:: face_culling_set(culling)\n"⟩,
   ⟨"front_facing_set", "pygpu_state_front_facing_set", METH_O,
     ".. function:: front_facing_set(invert)\n"⟩,
   ⟨"program_point_size_set", "pygpu_state_program_point_size_set", METH_O,
     ".. function:: program_point_size_set(enable)\n"⟩,
   ⟨"active_framebuffer_get", "pygpu_state_framebuffer_active_get", METH_NOARGS,
     ".. function:: framebuffer_active_get(enable)\n"⟩]

/-- The function name a doc string documents: what stands between the directive
`.. function:: ` at its start and the first `(`. -/
def documented_name (doc : String) : Option String :=
  let directive := ".. function:: ".toList
  if doc.toList.take directive.length = directive then
    some (String.mk ((doc.toList.drop directive.length).takeWhile (fun ch => ch != '(')))
  else Option.none

/-- Looking a name up in the method table (what calling `gpu.state.<name>` does): the entry
registered under the name, if there is one. -/
def find_method (methods : List PyMethodDef) (name : String) : Option PyMethodDef :=
  methods.find? (fun method => method.ml_name == name)

/-- The mode names the doc string of `blend_set` lists. -/
def blend_set_documented_modes : List String :=
  ["NONE", "ALPHA", "ALPHA_PREMULT", "ADDITIVE", "ADDITIVE_PREMULT", "MULTIPLY", "SUBTRACT",
   "INVERT"]

/-! ## The general computation of `gaussian_blur_1D` -/

/-- The part of `gaussian_blur_1D` that follows the early return for one point: the weight
initialization, the three loops and the normalization, for a span of any size, with the
values that are not numbers told apart. A fixed end point keeps its value. Every other
point gets `src[index] + influence * dst[index] / total_weight[index]`, which is a number
only when the initial `w2` is one (it enters `total_weight[index]`) and `total_weight[index]`
is not zero; `none` stands for a value that is not a number. -/
def gaussian_blur_1D_general (m : LibM) (src : List ℚ) (iterations : ℕ) (influence : ℚ)
    (smooth_ends keep_shape is_cyclic : Bool) (dst : List ℚ) : List (Option ℚ) :=
  let total_points : ℤ := src.length
  let last_pt := total_points - 1
  let st := blur_loop m src iterations smooth_ends keep_shape is_cyclic dst
  (List.range dst.length).map fun (index : ℕ) =>
    if is_end_and_fixed smooth_ends is_cyclic last_pt index then some (st.dst.getD index 0)
    else
      match w2_init_checked m keep_shape iterations with
      | none => none
      | some _ =>
        if final_total_weight m src iterations smooth_ends keep_shape is_cyclic dst index = 0
        then none
        else
          some (src.getD index 0 + influence * st.dst.getD index 0 /
            final_total_weight m src iterations smooth_ends keep_shape is_cyclic dst index)

/-! ## Pointwise description of the step loop

Auxiliary definitions of the proofs. They follow one index through the passes of the step
loop; `foldl_blur_step` and `point_after_eq_sum` below relate them to `blur_loop`. -/

/-- The weights `w` and `w2` after `k` passes of the step loop. -/
def weights_after (m : LibM) (keep_shape : Bool) (iterations : ℕ) : ℕ → ℚ × ℚ
  | 0 => (w_init keep_shape, w2_init m keep_shape iterations)
  | k + 1 =>
    let p := weights_after m keep_shape iterations k
    let nh := n_half keep_shape iterations
    let offset : ℤ := (iterations : ℤ) - (k : ℤ)
    (p.1 * (((nh + offset : ℤ) : ℚ) / ((nh + 1 - offset : ℤ) : ℚ)),
     p.2 * (((nh * 3 + offset : ℤ) : ℚ) / ((nh * 3 + 1 - offset : ℤ) : ℚ)))

/-- The pair `dst[index]`, `total_weight[index]` after `k` passes of the step loop, when
`dst[index]` is `d0` before the first pass. -/
def point_after (m : LibM) (src : List ℚ) (iterations : ℕ)
    (smooth_ends keep_shape is_cyclic : Bool) (index : ℕ) (d0 : ℚ) : ℕ → ℚ × ℚ
  | 0 => (d0, 0)
  | k + 1 =>
    let p := point_after m src iterations smooth_ends keep_shape is_cyclic index d0 k
    let ws := weights_after m keep_shape iterations k
    blur_point src smooth_ends is_cyclic ws.1 ws.2 ((iterations : ℤ) - (k : ℤ)) index p.1 p.2

/-- The value `dst[index]` has before the first pass. -/
def init_value (src : List ℚ) (smooth_ends is_cyclic : Bool) (dst : List ℚ) (index : ℕ) : ℚ :=
  if is_end_and_fixed smooth_ends is_cyclic ((src.length : ℤ) - 1) index then dst.getD index 0
  else 0


/-- The coefficients of the `src` values in `dst[index]` after `k` passes of the step loop,
for an index that is not a fixed end point of a span of `n` points: coefficient `j` belongs
to `src[j]`. -/
def coef_after (m : LibM) (n iterations : ℕ) (smooth_ends keep_shape is_cyclic : Bool)
    (index : ℕ) : ℕ → ℕ → ℚ
  | 0 => fun _ => 0
  | k + 1 => fun j =>
    let ws := weights_after m keep_shape iterations k
    let offset : ℤ := (iterations : ℤ) - (k : ℤ)
    let w_before := w_before_at smooth_ends is_cyclic index offset ws.1 ws.2
    let w_after := w_after_at smooth_ends is_cyclic n index offset ws.1 ws.2
    let before := before_index is_cyclic n index offset
    let after := after_index is_cyclic n index offset
    coef_after m n iterations smooth_ends keep_shape is_cyclic index k j +
      w_before * ((if j = before.toNat then 1 else 0) - (if j = index then 1 else 0)) +
      w_after * ((if j = after.toNat then 1 else 0) - (if j = index then 1 else 0))

/-- The divisor `total_weight[index]` of the normalization, as a function of the number of
points (it does not depend on the values). -/
def total_weight_at (m : LibM) (n iterations : ℕ) (smooth_ends keep_shape is_cyclic : Bool)
    (index : ℕ) : ℚ :=
  final_total_weight m (List.replicate n 0) iterations smooth_ends keep_shape is_cyclic
    (List.replicate n 0) index

/-- The coefficient of `src[j]` in the value `gaussian_blur_1D` writes to `dst[index]`, for an
index that is not a fixed end point of a span of `n` points. -/
def blur_coef (m : LibM) (n iterations : ℕ) (influence : ℚ)
    (smooth_ends keep_shape is_cyclic : Bool) (index j : ℕ) : ℚ :=
  (if j = index then 1 else 0) +
    influence * coef_after m n iterations smooth_ends keep_shape is_cyclic index iterations j /
      total_weight_at m n iterations smooth_ends keep_shape is_cyclic index

/-! # Theorems -/

theorem getD_map_range (n : ℕ) (f : ℕ → ℚ) (i : ℕ) (h : i < n) :
    ((List.range n).map f).getD i 0 = f i := by
  rw [List.getD_eq_getElem _ _ (by simpa using h)]
  simp

/-- The state after `k` passes, point by point. -/
theorem foldl_blur_step (m : LibM) (src : List ℚ) (iterations : ℕ)
    (smooth_ends keep_shape is_cyclic : Bool) (dst : List ℚ) (k : ℕ) :
    let st := (List.range k).foldl (blur_step src iterations smooth_ends keep_shape is_cyclic)
      (blur_init m src iterations smooth_ends keep_shape is_cyclic dst)
    st.dst.length = dst.length ∧
    (∀ i, i < dst.length → st.dst.getD i 0 =
      (point_after m src iterations smooth_ends keep_shape is_cyclic i
        (init_value src smooth_ends is_cyclic dst i) k).1) ∧
    (∀ i, i < dst.length → st.total_weight.getD i 0 =
      (point_after m src iterations smooth_ends keep_shape is_cyclic i
        (init_value src smooth_ends is_cyclic dst i) k).2) ∧
    st.w = (weights_after m keep_shape iterations k).1 ∧
    st.w2 = (weights_after m keep_shape iterations k).2 := by
  induction k with
  | zero =>
    refine ⟨by simp [blur_init], ?_, ?_, by simp [blur_init, weights_after],
      by simp [blur_init, weights_after]⟩
    · intro i hi
      simp only [List.range_zero, List.foldl_nil, blur_init, point_after, init_value]
      rw [getD_map_range _ _ _ hi]
    · intro i hi
      simp only [List.range_zero, List.foldl_nil, blur_init, point_after]
      simp
  | succ k ih =>
    obtain ⟨hlen, hd, ht, hw, hw2⟩ := ih
    simp only [List.range_succ, List.foldl_append, List.foldl_cons, List.foldl_nil]
    refine ⟨by simp [blur_step, hlen], ?_, ?_, ?_, ?_⟩
    · intro i hi
      simp only [blur_step, hlen]
      rw [getD_map_range _ _ _ hi, hd i hi, ht i hi, hw, hw2]
      rfl
    · intro i hi
      simp only [blur_step, hlen]
      rw [getD_map_range _ _ _ hi, hd i hi, ht i hi, hw, hw2]
      rfl
    · simp only [blur_step, hw]; rfl
    · simp only [blur_step, hw2]; rfl

theorem blur_loop_length (m : LibM) (src : List ℚ) (iterations : ℕ)
    (smooth_ends keep_shape is_cyclic : Bool) (dst : List ℚ) :
    (blur_loop m src iterations smooth_ends keep_shape is_cyclic dst).dst.length = dst.length :=
  (foldl_blur_step m src iterations smooth_ends keep_shape is_cyclic dst iterations).1

theorem gaussian_blur_1D_length (m : LibM) (src : List ℚ) (iterations : ℕ) (influence : ℚ)
    (smooth_ends keep_shape is_cyclic : Bool) (dst : List ℚ) :
    (gaussian_blur_1D m src iterations influence smooth_ends keep_shape is_cyclic dst).length =
      dst.length := by
  unfold gaussian_blur_1D
  split <;> simp

/-- A fixed end point is not touched by the passes. -/
theorem point_after_fixed (m : LibM) (src : List ℚ) (iterations : ℕ)
    (smooth_ends keep_shape is_cyclic : Bool) (index : ℕ) (d0 : ℚ) (k : ℕ)
    (hfix : is_end_and_fixed smooth_ends is_cyclic ((src.length : ℤ) - 1) index = true) :
    (point_after m src iterations smooth_ends keep_shape is_cyclic index d0 k).1 = d0 := by
  induction k with
  | zero => rfl
  | succ k ih =>
    simp only [point_after, blur_point, hfix, if_true]
    exact ih

theorem final_total_weight_eq (m : LibM) (src : List ℚ) (iterations : ℕ)
    (smooth_ends keep_shape is_cyclic : Bool) (dst : List ℚ) (i : ℕ) (hi : i < dst.length) :
    final_total_weight m src iterations smooth_ends keep_shape is_cyclic dst i =
      (point_after m src iterations smooth_ends keep_shape is_cyclic i
        (init_value src smooth_ends is_cyclic dst i) iterations).2 +
      ((weights_after m keep_shape iterations iterations).1 -
        (weights_after m keep_shape iterations iterations).2) := by
  obtain ⟨-, -, ht, hw, hw2⟩ :=
    foldl_blur_step m src iterations smooth_ends keep_shape is_cyclic dst iterations
  simp only [final_total_weight, blur_loop]
  rw [ht i hi, hw, hw2]

/-- The value `gaussian_blur_1D` leaves at a fixed end point. -/
theorem gaussian_blur_1D_fixed (m : LibM) (src : List ℚ) (iterations : ℕ) (influence : ℚ)
    (smooth_ends keep_shape is_cyclic : Bool) (dst : List ℚ) (i : ℕ) (hi : i < dst.length)
    (hfix : is_end_and_fixed smooth_ends is_cyclic ((src.length : ℤ) - 1) i = true) :
    (gaussian_blur_1D m src iterations influence smooth_ends keep_shape is_cyclic dst).getD i 0 =
      dst.getD i 0 := by
  unfold gaussian_blur_1D
  split
  · rfl
  · obtain ⟨-, hd, -, -, -⟩ :=
      foldl_blur_step m src iterations smooth_ends keep_shape is_cyclic dst iterations
    simp only []
    rw [getD_map_range _ _ _ hi, if_pos hfix]
    simp only [blur_loop]
    rw [hd i hi, point_after_fixed _ _ _ _ _ _ _ _ _ hfix]
    simp [init_value, hfix]

/-- The value `gaussian_blur_1D` writes at an index that is not a fixed end point. -/
theorem gaussian_blur_1D_free (m : LibM) (src : List ℚ) (iterations : ℕ) (influence : ℚ)
    (smooth_ends keep_shape is_cyclic : Bool) (dst : List ℚ) (i : ℕ) (hi : i < dst.length)
    (h1 : src.length ≠ 1)
    (hfix : is_end_and_fixed smooth_ends is_cyclic ((src.length : ℤ) - 1) i = false) :
    (gaussian_blur_1D m src iterations influence smooth_ends keep_shape is_cyclic dst).getD i 0 =
      src.getD i 0 + influence *
        (point_after m src iterations smooth_ends keep_shape is_cyclic i 0 iterations).1 /
        final_total_weight m src iterations smooth_ends keep_shape is_cyclic dst i := by
  unfold gaussian_blur_1D
  rw [if_neg h1]
  obtain ⟨-, hd, -, -, -⟩ :=
    foldl_blur_step m src iterations smooth_ends keep_shape is_cyclic dst iterations
  simp only []
  rw [getD_map_range _ _ _ hi]
  simp only [hfix, Bool.false_eq_true, if_false, blur_loop]
  rw [hd i hi]
  simp [init_value, hfix]

/-! ## Frame lemmas for `smooth_curve_attribute` -/

theorem slice_length (data : List ℚ) (range : IndexRange) :
    (slice data range).length = min range.size (data.length - range.start) := by
  simp [slice]

/-- Reading the buffer after a slice of it has been written. -/
theorem write_slice_getElem? (data : List ℚ) (range : IndexRange) (values : List ℚ)
    (hv : values.length ≤ data.length - range.start) (p : ℕ) :
    (write_slice data range values)[p]? =
      if range.start ≤ p ∧ p < range.start + values.length then values[p - range.start]?
      else data[p]? := by
  unfold write_slice
  by_cases h1 : p < range.start
  · have h1' : ¬ (range.start ≤ p ∧ p < range.start + values.length) := by omega
    rw [if_neg h1', List.append_assoc]
    by_cases hp : p < data.length
    · rw [List.getElem?_append_left (by simp; omega), List.getElem?_take_of_lt h1]
    · rw [List.getElem?_eq_none (by simp; omega), List.getElem?_eq_none (by omega)]
  · by_cases h2 : p < range.start + values.length
    · rw [if_pos ⟨by omega, h2⟩]
      have hs : range.start ≤ data.length := by omega
      rw [List.getElem?_append_left (by simp; omega),
        List.getElem?_append_right (by simp; omega)]
      simp [Nat.min_eq_left hs]
    · have h2' : ¬ (range.start ≤ p ∧ p < range.start + values.length) := by omega
      rw [if_neg h2']
      by_cases hs : range.start ≤ data.length
      · rw [List.getElem?_append_right (by simp; omega)]
        simp only [List.length_append, List.length_take, Nat.min_eq_left hs, List.getElem?_drop]
        congr 1; omega
      · have hv0 : values.length = 0 := by omega
        have : values = [] := List.length_eq_zero.mp hv0
        subst this
        simp only [List.append_nil, List.length_nil, Nat.add_zero]
        rw [List.take_of_length_le (by omega), List.drop_of_length_le (by omega)]
        simp

theorem write_slice_length (data : List ℚ) (range : IndexRange) (values : List ℚ)
    (hv : values.length ≤ data.length - range.start) :
    (write_slice data range values).length = data.length := by
  unfold write_slice
  simp only [List.length_append, List.length_take, List.length_drop]
  omega

theorem smooth_range_length (m : LibM) (iterations : ℕ) (influence : ℚ)
    (smooth_ends keep_shape is_cyclic : Bool) (data : List ℚ) (range : IndexRange) :
    (smooth_range m iterations influence smooth_ends keep_shape is_cyclic data range).length =
      data.length := by
  unfold smooth_range
  apply write_slice_length
  rw [gaussian_blur_1D_length, slice_length]
  omega

/-- Blurring a range leaves every index outside of the range as it is. -/
theorem smooth_range_frame (m : LibM) (iterations : ℕ) (influence : ℚ)
    (smooth_ends keep_shape is_cyclic : Bool) (data : List ℚ) (range : IndexRange) (p : ℕ)
    (hp : p < range.start ∨ range.start + range.size ≤ p) :
    (smooth_range m iterations influence smooth_ends keep_shape is_cyclic data range)[p]? =
      data[p]? := by
  unfold smooth_range
  have hl := gaussian_blur_1D_length m (slice data range) iterations influence smooth_ends
    keep_shape is_cyclic (slice data range)
  rw [slice_length] at hl
  rw [write_slice_getElem? _ _ _ (by omega)]
  rw [if_neg (by omega)]

/-- Every index of a range of `to_ranges mask` is an index of the mask. -/
theorem to_ranges_mem (mask : List ℕ) :
    ∀ r ∈ to_ranges mask, ∀ p, r.start ≤ p → p < r.start + r.size → p ∈ mask := by
  induction mask with
  | nil => intro r hr; simp [to_ranges] at hr
  | cons i rest ih =>
    intro r hr p h1 h2
    simp only [to_ranges] at hr
    split at hr
    · simp only [List.mem_singleton] at hr
      subst hr
      simp only at h1 h2
      have : p = i := by omega
      simp [this]
    · rename_i r0 rs heq
      rw [heq] at ih
      split at hr
      · rename_i hstart
        rcases List.mem_cons.mp hr with hr | hr
        · subst hr
          simp only at h1 h2
          by_cases hpi : p = i
          · simp [hpi]
          · exact List.mem_cons_of_mem _
              (ih r0 (List.mem_cons_self _ _) p (by omega) (by omega))
        · exact List.mem_cons_of_mem _ (ih r (List.mem_cons_of_mem _ hr) p h1 h2)
      · rcases List.mem_cons.mp hr with hr | hr
        · subst hr
          simp only at h1 h2
          have : p = i := by omega
          simp [this]
        · exact List.mem_cons_of_mem _ (ih r hr p h1 h2)

/-- Folding `smooth_range` over ranges that do not hold `p` leaves index `p` as it is. -/
theorem foldl_smooth_range_frame (m : LibM) (iterations : ℕ) (influence : ℚ)
    (smooth_ends keep_shape is_cyclic : Bool) (ranges : List IndexRange) (p : ℕ)
    (hp : ∀ r ∈ ranges, p < r.start ∨ r.start + r.size ≤ p) (data : List ℚ) :
    (ranges.foldl (smooth_range m iterations influence smooth_ends keep_shape is_cyclic)
      data)[p]? = data[p]? := by
  induction ranges generalizing data with
  | nil => rfl
  | cons r rs ih =>
    simp only [List.foldl_cons]
    rw [ih (fun r' hr' => hp r' (List.mem_cons_of_mem _ hr'))]
    exact smooth_range_frame _ _ _ _ _ _ _ _ _ (hp r (List.mem_cons_self _ _))

theorem foldl_smooth_range_length (m : LibM) (iterations : ℕ) (influence : ℚ)
    (smooth_ends keep_shape is_cyclic : Bool) (ranges : List IndexRange) (data : List ℚ) :
    (ranges.foldl (smooth_range m iterations influence smooth_ends keep_shape is_cyclic)
      data).length = data.length := by
  induction ranges generalizing data with
  | nil => rfl
  | cons r rs ih =>
    simp only [List.foldl_cons]
    rw [ih, smooth_range_length]

theorem smooth_curve_length (m : LibM) (points_by_curve : List ℕ) (selection cyclic : ℕ → Bool)
    (iterations : ℕ) (influence : ℚ) (smooth_ends keep_shape : Bool)
    (data : List ℚ) (curve_i : ℕ) :
    (smooth_curve m points_by_curve selection cyclic iterations influence smooth_ends keep_shape
      data curve_i).length = data.length := by
  unfold smooth_curve
  simp only
  split
  · rfl
  · exact foldl_smooth_range_length _ _ _ _ _ _ _ _

/-- One curve: an index that is not selected is left as it is. -/
theorem smooth_curve_unselected (m : LibM) (points_by_curve : List ℕ)
    (selection cyclic : ℕ → Bool) (iterations : ℕ) (influence : ℚ)
    (smooth_ends keep_shape : Bool) (data : List ℚ) (curve_i : ℕ) (p : ℕ)
    (hp : selection p = false) :
    (smooth_curve m points_by_curve selection cyclic iterations influence smooth_ends keep_shape
      data curve_i)[p]? = data[p]? := by
  unfold smooth_curve
  simp only
  split
  · rfl
  · apply foldl_smooth_range_frame
    intro r hr
    by_contra hcon
    have hmem := to_ranges_mem _ r hr p (by omega) (by omega)
    simp only [from_bools, List.mem_filter] at hmem
    rw [hp] at hmem
    exact absurd hmem.2 (by simp)

theorem foldl_smooth_curve_unselected (m : LibM) (points_by_curve : List ℕ)
    (selection cyclic : ℕ → Bool) (iterations : ℕ) (influence : ℚ)
    (smooth_ends keep_shape : Bool) (curves : List ℕ) (p : ℕ) (hp : selection p = false)
    (data : List ℚ) :
    (curves.foldl (smooth_curve m points_by_curve selection cyclic iterations influence
      smooth_ends keep_shape) data)[p]? = data[p]? := by
  induction curves generalizing data with
  | nil => rfl
  | cons c cs ih =>
    simp only [List.foldl_cons]
    rw [ih]
    exact smooth_curve_unselected _ _ _ _ _ _ _ _ _ _ _ hp

theorem foldl_smooth_curve_length (m : LibM) (points_by_curve : List ℕ)
    (selection cyclic : ℕ → Bool) (iterations : ℕ) (influence : ℚ)
    (smooth_ends keep_shape : Bool) (curves : List ℕ) (data : List ℚ) :
    (curves.foldl (smooth_curve m points_by_curve selection cyclic iterations influence
      smooth_ends keep_shape) data).length = data.length := by
  induction curves generalizing data with
  | nil => rfl
  | cons c cs ih =>
    simp only [List.foldl_cons]
    rw [ih, smooth_curve_length]

theorem smooth_curve_attribute_length (m : LibM) (curves_num : ℕ) (data : List ℚ)
    (points_by_curve : List ℕ) (selection cyclic : ℕ → Bool)
    (iterations : ℕ) (influence : ℚ) (smooth_ends keep_shape : Bool) :
    (smooth_curve_attribute m curves_num data points_by_curve selection cyclic iterations
      influence smooth_ends keep_shape).length = data.length := by
  unfold smooth_curve_attribute
  split
  · rfl
  · exact foldl_smooth_curve_length _ _ _ _ _ _ _ _ _ _

/-- Claim C1. `smooth_curve_attribute` respects the selection mask: for every curves geometry
(number of curves, offsets, cyclic flags), every selection and every combination of
parameters, the attribute buffer keeps its size and the value of every point that is not
selected is after the call what it was before (a curve without a selected point is a special
case: none of its points is selected). -/
theorem smooth_curve_attribute_respects_selection (m : LibM) (curves_num : ℕ) (data : List ℚ)
    (points_by_curve : List ℕ) (selection cyclic : ℕ → Bool)
    (iterations : ℕ) (influence : ℚ) (smooth_ends keep_shape : Bool) (p : ℕ)
    (hp : selection p = false) :
    (smooth_curve_attribute m curves_num data points_by_curve selection cyclic iterations
      influence smooth_ends keep_shape).length = data.length ∧
    (smooth_curve_attribute m curves_num data points_by_curve selection cyclic iterations
      influence smooth_ends keep_shape)[p]? = data[p]? := by
  refine ⟨smooth_curve_attribute_length _ _ _ _ _ _ _ _ _ _, ?_⟩
  unfold smooth_curve_attribute
  split
  · rfl
  · exact foldl_smooth_curve_unselected _ _ _ _ _ _ _ _ _ _ hp _

/-- Witness for claim C1: a curve of four points of which the last is not selected. -/
theorem smooth_curve_attribute_respects_selection_witness :
    (fun p : ℕ => decide (p < 3)) 3 = false ∧
    (smooth_curve_attribute libm_rational 1 [0, 0, 1, 5] [0, 4] (fun p => decide (p < 3))
      (fun _ => true) 1 1 false false).length = 4 ∧
    (smooth_curve_attribute libm_rational 1 [0, 0, 1, 5] [0, 4] (fun p => decide (p < 3))
      (fun _ => true) 1 1 false false)[3]? = some 5 :=
  ⟨by decide,
    smooth_curve_attribute_respects_selection libm_rational 1 [0, 0, 1, 5] [0, 4]
      (fun p => decide (p < 3)) (fun _ => true) 1 1 false false 3 (by decide)⟩

/-! ## The neighbour indices -/

theorem neg_lt_tmod (a n : ℤ) (hn : 0 < n) : -n < a.tmod n := by
  rcases a with a | a <;> rcases n with n | n
  · have := @Int.tmod_nonneg (Int.ofNat a) (Int.ofNat n) (Int.ofNat_nonneg a)
    omega
  · exact absurd hn (by simp [Int.negSucc_lt_zero])
  · show -(Int.ofNat n) < -Int.ofNat (a.succ % n)
    have hn' : 0 < n := by simpa using hn
    have := Nat.mod_lt a.succ hn'
    simp only [Int.ofNat_eq_coe]
    omega
  · exact absurd hn (by simp [Int.negSucc_lt_zero])

/-- The double `%` of the cyclic case is the residue that is not negative. -/
theorem tmod_add_tmod_eq_emod (a n : ℤ) (hn : 0 < n) : (a.tmod n + n).tmod n = a % n := by
  have h1 := neg_lt_tmod a n hn
  rw [Int.tmod_eq_emod (by omega) (by omega), Int.tmod_def]
  have : a - n * a.tdiv n + n = a + n * (1 - a.tdiv n) := by ring
  rw [this, Int.add_mul_emod_self_left]

theorem before_index_cyclic (n index offset : ℤ) (hn : 0 < n) :
    before_index true n index offset = (index - offset) % n := by
  simp only [before_index, if_true]
  exact tmod_add_tmod_eq_emod _ _ hn

theorem after_index_cyclic (n index offset : ℤ) (hn : 0 < n) (h : 0 ≤ index + offset) :
    after_index true n index offset = (index + offset) % n := by
  simp only [after_index, if_true]
  exact Int.tmod_eq_emod h (by omega)

theorem before_index_bounds (is_cyclic : Bool) (n index offset : ℤ)
    (hi : 0 ≤ index) (hin : index < n) (ho : 0 ≤ offset) :
    0 ≤ before_index is_cyclic n index offset ∧ before_index is_cyclic n index offset < n := by
  cases is_cyclic
  · simp only [before_index, Bool.false_eq_true, if_false]
    omega
  · rw [before_index_cyclic _ _ _ (by omega)]
    exact ⟨Int.emod_nonneg _ (by omega), Int.emod_lt_of_pos _ (by omega)⟩

theorem after_index_bounds (is_cyclic : Bool) (n index offset : ℤ)
    (hi : 0 ≤ index) (hin : index < n) (ho : 0 ≤ offset) :
    0 ≤ after_index is_cyclic n index offset ∧ after_index is_cyclic n index offset < n := by
  cases is_cyclic
  · simp only [after_index, Bool.false_eq_true, if_false]
    omega
  · rw [after_index_cyclic _ _ _ (by omega) (by omega)]
    exact ⟨Int.emod_nonneg _ (by omega), Int.emod_lt_of_pos _ (by omega)⟩

/-! ## Open ends -/

theorem getElem?_eq_of_getD_eq (l l' : List ℚ) (i : ℕ) (hl : i < l.length) (hl' : i < l'.length)
    (h : l.getD i 0 = l'.getD i 0) : l[i]? = l'[i]? := by
  rw [List.getD_eq_getElem _ _ hl, List.getD_eq_getElem _ _ hl'] at h
  rw [List.getElem?_eq_getElem hl, List.getElem?_eq_getElem hl', h]

theorem final_total_weight_free (m : LibM) (src : List ℚ) (iterations : ℕ)
    (smooth_ends keep_shape is_cyclic : Bool) (dst : List ℚ) (i : ℕ) (hi : i < dst.length)
    (hfix : is_end_and_fixed smooth_ends is_cyclic ((src.length : ℤ) - 1) i = false) :
    final_total_weight m src iterations smooth_ends keep_shape is_cyclic dst i =
      (point_after m src iterations smooth_ends keep_shape is_cyclic i 0 iterations).2 +
      ((weights_after m keep_shape iterations iterations).1 -
        (weights_after m keep_shape iterations iterations).2) := by
  rw [final_total_weight_eq _ _ _ _ _ _ _ _ hi]
  simp [init_value, hfix]

/-- Claim C2. End points of an open sequence are kept when the ends are not smoothed: for
every `src` with at least two points and a `dst` of the same size, every number of
iterations, every influence and `keep_shape`, with `smooth_ends` and `is_cyclic` both false
`gaussian_blur_1D` leaves `dst[0]` and `dst[last]` at the values they had on entry, while
every other index is overwritten: its value on return is the same whatever `dst` held on
entry. -/
theorem gaussian_blur_1D_open_ends_kept (m : LibM) (src dst : List ℚ) (iterations : ℕ)
    (influence : ℚ) (keep_shape : Bool) (hlen : src.length = dst.length)
    (h2 : 2 ≤ src.length) :
    (gaussian_blur_1D m src iterations influence false keep_shape false dst).length =
      dst.length ∧
    (gaussian_blur_1D m src iterations influence false keep_shape false dst)[0]? = dst[0]? ∧
    (gaussian_blur_1D m src iterations influence false keep_shape false dst)[src.length - 1]? =
      dst[src.length - 1]? ∧
    ∀ (dst' : List ℚ) (i : ℕ), dst'.length = dst.length → 0 < i → i < src.length - 1 →
      (gaussian_blur_1D m src iterations influence false keep_shape false dst')[i]? =
        (gaussian_blur_1D m src iterations influence false keep_shape false dst)[i]? := by
  have hL := gaussian_blur_1D_length m src iterations influence false keep_shape false dst
  refine ⟨hL, ?_, ?_, ?_⟩
  · apply getElem?_eq_of_getD_eq _ _ _ (by omega) (by omega)
    apply gaussian_blur_1D_fixed _ _ _ _ _ _ _ _ _ (by omega)
    simp [is_end_and_fixed]
  · apply getElem?_eq_of_getD_eq _ _ _ (by omega) (by omega)
    apply gaussian_blur_1D_fixed _ _ _ _ _ _ _ _ _ (by omega)
    have : ((src.length - 1 : ℕ) : ℤ) = (src.length : ℤ) - 1 := by omega
    simp [is_end_and_fixed, this]
  · intro dst' i hlen' h0 hi
    have hL' := gaussian_blur_1D_length m src iterations influence false keep_shape false dst'
    apply getElem?_eq_of_getD_eq _ _ _ (by omega) (by omega)
    have hfree : is_end_and_fixed false false ((src.length : ℤ) - 1) i = false := by
      have h1 : (i : ℤ) ≠ 0 := by omega
      have h3 : (i : ℤ) ≠ (src.length : ℤ) - 1 := by omega
      simp [is_end_and_fixed, h1, h3]
    rw [gaussian_blur_1D_free _ _ _ _ _ _ _ _ _ (by omega) (by omega) hfree,
      gaussian_blur_1D_free _ _ _ _ _ _ _ _ _ (by omega) (by omega) hfree,
      final_total_weight_free _ _ _ _ _ _ _ _ (by omega) hfree,
      final_total_weight_free _ _ _ _ _ _ _ _ (by omega) hfree]

/-- Witness for claim C2: three points, `dst` holding other values than `src` on entry. -/
theorem gaussian_blur_1D_open_ends_kept_witness :
    ([0, 0, 1] : List ℚ).length = ([5, 6, 7] : List ℚ).length ∧
    2 ≤ ([0, 0, 1] : List ℚ).length ∧
    (gaussian_blur_1D libm_rational [0, 0, 1] 2 1 false true false [5, 6, 7])[0]? = some 5 ∧
    (gaussian_blur_1D libm_rational [0, 0, 1] 2 1 false true false [5, 6, 7])[2]? = some 7 ∧
    (gaussian_blur_1D libm_rational [0, 0, 1] 2 1 false true false [8, 9, 10])[1]? =
      (gaussian_blur_1D libm_rational [0, 0, 1] 2 1 false true false [5, 6, 7])[1]? :=
  ⟨rfl, by decide,
    (gaussian_blur_1D_open_ends_kept libm_rational [0, 0, 1] [5, 6, 7] 2 1 true rfl
      (by decide)).2.1,
    (gaussian_blur_1D_open_ends_kept libm_rational [0, 0, 1] [5, 6, 7] 2 1 true rfl
      (by decide)).2.2.1,
    (gaussian_blur_1D_open_ends_kept libm_rational [0, 0, 1] [5, 6, 7] 2 1 true rfl
      (by decide)).2.2.2 [8, 9, 10] 1 rfl (by decide) (by decide)⟩

/-! ## The filter and iterated averaging -/

/-- One iteration on the cyclic sequence `0, 0, 1`, influence one, `keep_shape` off. -/
theorem gaussian_blur_1D_eval_one_iteration (m : LibM) (smooth_ends : Bool) :
    gaussian_blur_1D m [0, 0, 1] 1 1 smooth_ends false true [0, 0, 1] =
      [14 / 43, 14 / 43, 15 / 43] := by
  have e1 : Int.tmod 1 3 = 1 := by decide
  have e2 : Int.tmod 2 3 = 2 := by decide
  have e3 : Int.tmod (-1) 3 = -1 := by decide
  have e4 : Int.tdiv 1 4 = 0 := by decide
  have e5 : Int.tmod 3 3 = 0 := by decide
  have e6 : Int.tmod 4 3 = 1 := by decide
  simp [gaussian_blur_1D, final_total_weight, blur_loop, blur_init, blur_step, blur_point,
    List.range, List.range.loop, is_end_and_fixed, before_index, after_index, w_before_at,
    w_after_at, n_half, w_init, w2_init, w2_init_checked, e1, e2, e3, e4, e5, e6]
  norm_num

theorem average_neighbors_eval_one_step :
    average_neighbors 1 [0, 0, 1] = [1 / 4, 1 / 4, 1 / 2] := by
  simp [average_neighbors, average_neighbors_step, List.range, List.range.loop]
  norm_num

/-- Claim C3 (evaluation at the failing input). With one iteration, influence one and
`keep_shape` off, `gaussian_blur_1D` turns the cyclic sequence `0, 0, 1` into
`14/43, 14/43, 15/43`, while one step of neighbour averaging gives `1/4, 1/4, 1/2`:
the relative weight of a direct neighbour is `14/43` instead of `1/4`, because the binomial
row is taken at `n_half = 14` and cut off one place away from the centre. -/
theorem gaussian_blur_1D_one_iteration_value (m : LibM) (smooth_ends : Bool) :
    gaussian_blur_1D m [0, 0, 1] 1 1 smooth_ends false true [0, 0, 1] =
      [14 / 43, 14 / 43, 15 / 43] ∧
    average_neighbors 1 [0, 0, 1] = [1 / 4, 1 / 4, 1 / 2] ∧
    gaussian_blur_1D m [0, 0, 1] 1 1 smooth_ends false true [0, 0, 1] ≠
      average_neighbors 1 [0, 0, 1] := by
  refine ⟨gaussian_blur_1D_eval_one_iteration m smooth_ends, average_neighbors_eval_one_step, ?_⟩
  rw [gaussian_blur_1D_eval_one_iteration, average_neighbors_eval_one_step]
  norm_num

/-! ## The weights sum to one -/

theorem getD_map_add (src : List ℚ) (c : ℚ) (j : ℕ) (hj : j < src.length) :
    (src.map (· + c)).getD j 0 = src.getD j 0 + c := by
  rw [List.getD_eq_getElem _ _ (by simpa using hj), List.getD_eq_getElem _ _ hj]
  simp

/-- The body of the step loop only uses differences of `src` values. -/
theorem blur_point_map_add (src : List ℚ) (c : ℚ) (smooth_ends is_cyclic : Bool) (w w2 : ℚ)
    (offset : ℤ) (index : ℕ) (d t : ℚ) (hi : index < src.length) (ho : 0 ≤ offset) :
    blur_point (src.map (· + c)) smooth_ends is_cyclic w w2 offset index d t =
      blur_point src smooth_ends is_cyclic w w2 offset index d t := by
  have hb := before_index_bounds is_cyclic src.length index offset (by omega)
    (by exact_mod_cast hi) ho
  have ha := after_index_bounds is_cyclic src.length index offset (by omega)
    (by exact_mod_cast hi) ho
  simp only [blur_point, List.length_map]
  rw [getD_map_add _ _ _ hi, getD_map_add _ _ _ (by omega), getD_map_add _ _ _ (by omega)]
  split
  · rfl
  · congr 1; ring

theorem point_after_map_add (m : LibM) (src : List ℚ) (c : ℚ) (iterations : ℕ)
    (smooth_ends keep_shape is_cyclic : Bool) (index : ℕ) (d0 : ℚ) (hi : index < src.length)
    (k : ℕ) (hk : k ≤ iterations) :
    point_after m (src.map (· + c)) iterations smooth_ends keep_shape is_cyclic index d0 k =
      point_after m src iterations smooth_ends keep_shape is_cyclic index d0 k := by
  induction k with
  | zero => rfl
  | succ k ih =>
    simp only [point_after]
    rw [ih (by omega), blur_point_map_add _ _ _ _ _ _ _ _ _ _ hi (by omega)]

/-- The accumulated weight of a point depends on the number of points only. -/
theorem point_after_snd_congr (m : LibM) (src src' : List ℚ) (iterations : ℕ)
    (smooth_ends keep_shape is_cyclic : Bool) (index : ℕ) (d0 d0' : ℚ)
    (hlen : src.length = src'.length) (k : ℕ) :
    (point_after m src iterations smooth_ends keep_shape is_cyclic index d0 k).2 =
      (point_after m src' iterations smooth_ends keep_shape is_cyclic index d0' k).2 := by
  induction k with
  | zero => rfl
  | succ k ih =>
    simp only [point_after, blur_point, hlen]
    split
    · exact ih
    · simp only [ih]

theorem final_total_weight_congr (m : LibM) (src src' dst dst' : List ℚ) (iterations : ℕ)
    (smooth_ends keep_shape is_cyclic : Bool) (index : ℕ)
    (hlen : src.length = src'.length) (hi : index < dst.length) (hi' : index < dst'.length)
    (hfix : is_end_and_fixed smooth_ends is_cyclic ((src.length : ℤ) - 1) index = false) :
    final_total_weight m src iterations smooth_ends keep_shape is_cyclic dst index =
      final_total_weight m src' iterations smooth_ends keep_shape is_cyclic dst' index := by
  rw [final_total_weight_free _ _ _ _ _ _ _ _ hi hfix,
    final_total_weight_free _ _ _ _ _ _ _ _ hi' (by rw [← hlen]; exact hfix),
    point_after_snd_congr m src src' _ _ _ _ _ 0 0 hlen]

theorem sum_coef_after (m : LibM) (n iterations : ℕ) (smooth_ends keep_shape is_cyclic : Bool)
    (index : ℕ) (hi : index < n) (k : ℕ) (hk : k ≤ iterations) :
    ∑ j in Finset.range n,
      coef_after m n iterations smooth_ends keep_shape is_cyclic index k j = 0 := by
  induction k with
  | zero => simp [coef_after]
  | succ k ih =>
    have hb := before_index_bounds is_cyclic n index ((iterations : ℤ) - (k : ℤ)) (by omega)
      (by exact_mod_cast hi) (by omega)
    have ha := after_index_bounds is_cyclic n index ((iterations : ℤ) - (k : ℤ)) (by omega)
      (by exact_mod_cast hi) (by omega)
    have hb' : (before_index is_cyclic n index ((iterations : ℤ) - (k : ℤ))).toNat < n := by
      omega
    have ha' : (after_index is_cyclic n index ((iterations : ℤ) - (k : ℤ))).toNat < n := by
      omega
    simp only [coef_after, Finset.sum_add_distrib, ← Finset.mul_sum, Finset.sum_sub_distrib,
      Finset.sum_ite_eq', Finset.mem_range, hb', ha', hi, if_true, ih (by omega)]
    ring

theorem point_after_eq_sum (m : LibM) (src : List ℚ) (iterations : ℕ)
    (smooth_ends keep_shape is_cyclic : Bool) (index : ℕ) (hi : index < src.length)
    (hfix : is_end_and_fixed smooth_ends is_cyclic ((src.length : ℤ) - 1) index = false)
    (k : ℕ) (hk : k ≤ iterations) :
    (point_after m src iterations smooth_ends keep_shape is_cyclic index 0 k).1 =
      ∑ j in Finset.range src.length,
        coef_after m src.length iterations smooth_ends keep_shape is_cyclic index k j *
          src.getD j 0 := by
  induction k with
  | zero => simp [coef_after, point_after]
  | succ k ih =>
    have hb := before_index_bounds is_cyclic src.length index ((iterations : ℤ) - (k : ℤ))
      (by omega) (by exact_mod_cast hi) (by omega)
    have ha := after_index_bounds is_cyclic src.length index ((iterations : ℤ) - (k : ℤ))
      (by omega) (by exact_mod_cast hi) (by omega)
    have hb' :
        (before_index is_cyclic src.length index ((iterations : ℤ) - (k : ℤ))).toNat <
          src.length := by omega
    have ha' :
        (after_index is_cyclic src.length index ((iterations : ℤ) - (k : ℤ))).toNat <
          src.length := by omega
    simp only [point_after, blur_point, hfix, Bool.false_eq_true, if_false, coef_after]
    rw [ih (by omega)]
    simp only [add_mul, sub_mul, mul_assoc, Finset.sum_add_distrib, ← Finset.mul_sum,
      Finset.sum_sub_distrib, ite_mul, one_mul, zero_mul, Finset.sum_ite_eq', Finset.mem_range,
      hb', ha', hi, if_true]
    ring

theorem sum_blur_coef (m : LibM) (n iterations : ℕ) (influence : ℚ)
    (smooth_ends keep_shape is_cyclic : Bool) (index : ℕ) (hi : index < n) :
    ∑ j in Finset.range n,
      blur_coef m n iterations influence smooth_ends keep_shape is_cyclic index j = 1 := by
  simp only [blur_coef, Finset.sum_add_distrib, Finset.sum_ite_eq', Finset.mem_range, hi,
    if_true, ← Finset.sum_div, ← Finset.mul_sum,
    sum_coef_after m n iterations smooth_ends keep_shape is_cyclic index hi iterations le_rfl]
  simp

/-- Claim C4. All weights sum up to one, with and without `keep_shape`: for every `src` with
at least two points (and `dst` of the same size), every number of iterations, every
influence, `smooth_ends`, `keep_shape` and `is_cyclic`, and every index that is not a fixed
end point and whose accumulated `total_weight` is not zero, the value written to
`dst[index]` is the linear combination of the `src` values with the coefficients
`blur_coef`, which depend on the number of points and the parameters only and sum to exactly
one; and adding one constant `c` to every `src` value adds `c` to the value written. -/
theorem gaussian_blur_1D_weights_sum_to_one (m : LibM) (src dst : List ℚ) (iterations : ℕ)
    (influence : ℚ) (smooth_ends keep_shape is_cyclic : Bool) (index : ℕ)
    (hlen : src.length = dst.length) (h2 : 2 ≤ src.length) (hi : index < src.length)
    (hfix : is_end_and_fixed smooth_ends is_cyclic ((src.length : ℤ) - 1) index = false)
    (_htw : final_total_weight m src iterations smooth_ends keep_shape is_cyclic dst index ≠ 0) :
    ∑ j in Finset.range src.length,
      blur_coef m src.length iterations influence smooth_ends keep_shape is_cyclic index j = 1 ∧
    (gaussian_blur_1D m src iterations influence smooth_ends keep_shape is_cyclic dst).getD
        index 0 =
      ∑ j in Finset.range src.length,
        blur_coef m src.length iterations influence smooth_ends keep_shape is_cyclic index j *
          src.getD j 0 ∧
    ∀ c : ℚ,
      (gaussian_blur_1D m (src.map (· + c)) iterations influence smooth_ends keep_shape
        is_cyclic dst).getD index 0 =
      (gaussian_blur_1D m src iterations influence smooth_ends keep_shape is_cyclic dst).getD
        index 0 + c := by
  have hfree := gaussian_blur_1D_free m src iterations influence smooth_ends keep_shape
    is_cyclic dst index (by omega) (by omega) hfix
  refine ⟨sum_blur_coef _ _ _ _ _ _ _ _ hi, ?_, ?_⟩
  · rw [hfree, point_after_eq_sum _ _ _ _ _ _ _ hi hfix _ le_rfl]
    have htw : final_total_weight m src iterations smooth_ends keep_shape is_cyclic dst index =
        total_weight_at m src.length iterations smooth_ends keep_shape is_cyclic index := by
      unfold total_weight_at
      exact final_total_weight_congr _ _ _ _ _ _ _ _ _ _ (by simp) (by omega) (by simpa using hi)
        hfix
    rw [htw]
    simp only [blur_coef, add_mul, Finset.sum_add_distrib, ite_mul, one_mul, zero_mul,
      Finset.sum_ite_eq', Finset.mem_range, hi, if_true]
    congr 1
    rw [Finset.mul_sum, Finset.sum_div, Finset.sum_congr rfl]
    intro j _
    ring
  · intro c
    rw [hfree, gaussian_blur_1D_free m (src.map (· + c)) iterations influence smooth_ends
      keep_shape is_cyclic dst index (by omega) (by simpa using (by omega : src.length ≠ 1))
      (by simpa using hfix)]
    rw [point_after_map_add _ _ _ _ _ _ _ _ _ hi _ le_rfl, getD_map_add _ _ _ hi,
      final_total_weight_congr m (src.map (· + c)) src dst dst iterations smooth_ends keep_shape
        is_cyclic index (by simp) (by omega) (by omega) (by simpa using hfix)]
    ring

theorem final_total_weight_eval_one_iteration (m : LibM) (smooth_ends : Bool) :
    final_total_weight m [0, 0, 1] 1 smooth_ends false true [0, 0, 1] 0 = 43 / 14 := by
  have e4 : Int.tdiv 1 4 = 0 := by decide
  simp [final_total_weight, blur_loop, blur_init, blur_step, blur_point,
    List.range, List.range.loop, is_end_and_fixed, w_before_at,
    w_after_at, n_half, w_init, w2_init, w2_init_checked, e4]
  norm_num

/-- Witness for claim C4: point `0` of the cyclic sequence `0, 0, 1`, one iteration; the
accumulated weight is `43/14`, and the constant added is `5`. -/
theorem gaussian_blur_1D_weights_sum_to_one_witness :
    is_end_and_fixed false true ((([0, 0, 1] : List ℚ).length : ℤ) - 1) ((0 : ℕ) : ℤ) = false ∧
    final_total_weight libm_rational [0, 0, 1] 1 false false true [0, 0, 1] 0 ≠ 0 ∧
    ∑ j in Finset.range 3, blur_coef libm_rational 3 1 1 false false true 0 j = 1 ∧
    (gaussian_blur_1D libm_rational [0, 0, 1] 1 1 false false true [0, 0, 1]).getD 0 0 =
      ∑ j in Finset.range 3,
        blur_coef libm_rational 3 1 1 false false true 0 j * ([0, 0, 1] : List ℚ).getD j 0 ∧
    (gaussian_blur_1D libm_rational (([0, 0, 1] : List ℚ).map (· + 5)) 1 1 false false true
        [0, 0, 1]).getD 0 0 =
      (gaussian_blur_1D libm_rational [0, 0, 1] 1 1 false false true [0, 0, 1]).getD 0 0 + 5 :=
  have hfix : is_end_and_fixed false true ((([0, 0, 1] : List ℚ).length : ℤ) - 1)
      ((0 : ℕ) : ℤ) = false := by simp [is_end_and_fixed]
  have htw : final_total_weight libm_rational [0, 0, 1] 1 false false true [0, 0, 1] 0 ≠ 0 := by
    rw [final_total_weight_eval_one_iteration]; norm_num
  ⟨hfix, htw,
    (gaussian_blur_1D_weights_sum_to_one libm_rational [0, 0, 1] [0, 0, 1] 1 1 false false true
      0 rfl (by decide) (by decide) hfix htw).1,
    (gaussian_blur_1D_weights_sum_to_one libm_rational [0, 0, 1] [0, 0, 1] 1 1 false false true
      0 rfl (by decide) (by decide) hfix htw).2.1,
    (gaussian_blur_1D_weights_sum_to_one libm_rational [0, 0, 1] [0, 0, 1] 1 1 false false true
      0 rfl (by decide) (by decide) hfix htw).2.2 5⟩

/-! ## A cyclic curve whose points are all selected -/

theorem slice_getElem? (data : List ℚ) (range : IndexRange) (j : ℕ) :
    (slice data range)[j]? = if j < range.size then data[range.start + j]? else none := by
  simp [slice, List.getElem?_take, List.getElem?_drop]

theorem slice_congr (data data2 : List ℚ) (range : IndexRange)
    (h : ∀ p, range.start ≤ p → p < range.start + range.size → data[p]? = data2[p]?) :
    slice data range = slice data2 range := by
  apply List.ext_getElem?
  intro j
  rw [slice_getElem?, slice_getElem?]
  split
  · exact h _ (by omega) (by omega)
  · rfl

theorem slice_getD (data : List ℚ) (range : IndexRange) (j : ℕ) (hj : j < range.size) :
    (slice data range).getD j 0 = data.getD (range.start + j) 0 := by
  simp only [List.getD_eq_getElem?_getD, slice_getElem?, hj, if_true]

/-- Inside the range, `smooth_range` leaves what `gaussian_blur_1D` returns for the slice. -/
theorem smooth_range_inside (m : LibM) (iterations : ℕ) (influence : ℚ)
    (smooth_ends keep_shape is_cyclic : Bool) (data : List ℚ) (range : IndexRange) (p : ℕ)
    (hfit : range.start + range.size ≤ data.length)
    (hp1 : range.start ≤ p) (hp2 : p < range.start + range.size) :
    (smooth_range m iterations influence smooth_ends keep_shape is_cyclic data range)[p]? =
      (gaussian_blur_1D m (slice data range) iterations influence smooth_ends keep_shape
        is_cyclic (slice data range))[p - range.start]? := by
  unfold smooth_range
  have hl := gaussian_blur_1D_length m (slice data range) iterations influence smooth_ends
    keep_shape is_cyclic (slice data range)
  rw [slice_length] at hl
  rw [write_slice_getElem? _ _ _ (by omega)]
  rw [if_pos ⟨hp1, by omega⟩]

/-- One curve: an index outside of its selection mask is left as it is. -/
theorem smooth_curve_frame (m : LibM) (points_by_curve : List ℕ)
    (selection cyclic : ℕ → Bool) (iterations : ℕ) (influence : ℚ)
    (smooth_ends keep_shape : Bool) (data : List ℚ) (curve_i : ℕ) (p : ℕ)
    (hp : p ∉ from_bools (points_by_curve_at points_by_curve curve_i) selection) :
    (smooth_curve m points_by_curve selection cyclic iterations influence smooth_ends keep_shape
      data curve_i)[p]? = data[p]? := by
  unfold smooth_curve
  simp only
  split
  · rfl
  · apply foldl_smooth_range_frame
    intro r hr
    by_contra hcon
    exact hp (to_ranges_mem _ r hr p (by omega) (by omega))

theorem foldl_smooth_curve_frame (m : LibM) (points_by_curve : List ℕ)
    (selection cyclic : ℕ → Bool) (iterations : ℕ) (influence : ℚ)
    (smooth_ends keep_shape : Bool) (curves : List ℕ) (p : ℕ)
    (hp : ∀ c ∈ curves, p ∉ from_bools (points_by_curve_at points_by_curve c) selection)
    (data : List ℚ) :
    (curves.foldl (smooth_curve m points_by_curve selection cyclic iterations influence
      smooth_ends keep_shape) data)[p]? = data[p]? := by
  induction curves generalizing data with
  | nil => rfl
  | cons c cs ih =>
    simp only [List.foldl_cons]
    rw [ih (fun c' hc' => hp c' (List.mem_cons_of_mem _ hc'))]
    exact smooth_curve_frame _ _ _ _ _ _ _ _ _ _ _ (hp c (List.mem_cons_self _ _))

theorem to_ranges_range' (s n : ℕ) :
    to_ranges (List.range' s (n + 1)) = [{ start := s, size := n + 1 }] := by
  induction n generalizing s with
  | zero => simp [to_ranges]
  | succ n ih =>
    rw [List.range'_succ, to_ranges, ih (s + 1)]
    simp

/-- The offsets of a sorted offset list, read with a default, are monotone. -/
theorem offsets_getD_mono (offsets : List ℕ) (hsorted : offsets.Pairwise (· ≤ ·)) (a b : ℕ)
    (hab : a ≤ b) (hb : b < offsets.length) : offsets.getD a 0 ≤ offsets.getD b 0 := by
  rw [List.getD_eq_getElem _ _ (by omega), List.getD_eq_getElem _ _ hb]
  rcases Nat.eq_or_lt_of_le hab with h | h
  · subst h; exact le_rfl
  · exact List.pairwise_iff_getElem.mp hsorted a b (by omega) hb h

/-- The points of another curve are not points of this curve. -/
theorem not_mem_from_bools_of_ne (offsets : List ℕ) (hsorted : offsets.Pairwise (· ≤ ·))
    (selection : ℕ → Bool) (c c' p : ℕ) (hc : c + 1 < offsets.length)
    (hc' : c' + 1 < offsets.length) (hne : c' ≠ c)
    (hp1 : offsets.getD c 0 ≤ p) (hp2 : p < offsets.getD (c + 1) 0) :
    p ∉ from_bools (points_by_curve_at offsets c') selection := by
  intro hmem
  simp only [from_bools, points_by_curve_at, List.mem_filter, List.mem_range'_1] at hmem
  obtain ⟨⟨h1, h2⟩, -⟩ := hmem
  rcases Nat.lt_or_gt_of_ne hne with h | h
  · have := offsets_getD_mono offsets hsorted (c' + 1) c (by omega) (by omega)
    omega
  · have := offsets_getD_mono offsets hsorted (c + 1) c' (by omega) (by omega)
    omega

/-- On a curve whose points are all selected, `smooth_curve_attribute` leaves what
`gaussian_blur_1D` returns for the slice of the curve, read from the original values. -/
theorem smooth_curve_attribute_selected_curve (m : LibM) (curves_num : ℕ) (data : List ℚ)
    (offsets : List ℕ) (selection cyclic : ℕ → Bool)
    (iterations : ℕ) (influence : ℚ) (smooth_ends keep_shape : Bool) (c p : ℕ)
    (hsorted : offsets.Pairwise (· ≤ ·)) (hnum : curves_num + 1 = offsets.length)
    (hdata : ∀ o ∈ offsets, o ≤ data.length) (hc : c < curves_num)
    (hsel : ∀ q, offsets.getD c 0 ≤ q → q < offsets.getD (c + 1) 0 → selection q = true)
    (hp1 : offsets.getD c 0 ≤ p) (hp2 : p < offsets.getD (c + 1) 0) :
    (smooth_curve_attribute m curves_num data offsets selection cyclic iterations influence
      smooth_ends keep_shape)[p]? =
      (gaussian_blur_1D m (slice data (points_by_curve_at offsets c)) iterations influence
        smooth_ends keep_shape (cyclic c) (slice data (points_by_curve_at offsets c)))[
          p - offsets.getD c 0]? := by
  have hfit : offsets.getD (c + 1) 0 ≤ data.length := by
    apply hdata
    rw [List.getD_eq_getElem _ _ (by omega)]
    exact List.getElem_mem _
  have hne : data.isEmpty = false := by
    cases data with
    | nil => simp only [List.length_nil] at hfit; omega
    | cons _ _ => rfl
  unfold smooth_curve_attribute
  rw [hne]
  simp only [Bool.false_eq_true, if_false]
  have hsplit : List.range curves_num =
      List.range c ++ c :: List.range' (c + 1) (curves_num - c - 1) := by
    have happ := List.range'_append 0 c (curves_num - c) 1
    simp only [Nat.one_mul, Nat.zero_add] at happ
    have hk : curves_num - c = (curves_num - c - 1) + 1 := by omega
    have hk' : curves_num - c + c = curves_num := by omega
    rw [List.range_eq_range', List.range_eq_range', ← List.range'_succ, ← hk, happ, hk']
  rw [hsplit, List.foldl_append, List.foldl_cons]
  set mid := (List.range c).foldl (smooth_curve m offsets selection cyclic iterations influence
    smooth_ends keep_shape) data with hmid
  have hmid_len : mid.length = data.length := foldl_smooth_curve_length _ _ _ _ _ _ _ _ _ _
  have hmid_eq : ∀ q, offsets.getD c 0 ≤ q → q < offsets.getD (c + 1) 0 →
      mid[q]? = data[q]? := by
    intro q hq1 hq2
    apply foldl_smooth_curve_frame
    intro c' hc'
    have hc'' := List.mem_range.mp hc'
    exact not_mem_from_bools_of_ne offsets hsorted selection c c' q (by omega) (by omega)
      (by omega) hq1 hq2
  rw [foldl_smooth_curve_frame _ _ _ _ _ _ _ _ _ p]
  · -- the curve itself
    have hN : offsets.getD (c + 1) 0 - offsets.getD c 0 =
        (offsets.getD (c + 1) 0 - offsets.getD c 0 - 1) + 1 := by omega
    have hmask : from_bools (points_by_curve_at offsets c) selection =
        List.range' (offsets.getD c 0) (offsets.getD (c + 1) 0 - offsets.getD c 0) := by
      simp only [from_bools, points_by_curve_at]
      rw [List.filter_eq_self]
      intro q hq
      rw [List.mem_range'_1] at hq
      exact hsel q hq.1 (by omega)
    unfold smooth_curve
    simp only [hmask]
    rw [hN, to_ranges_range', ← hN]
    have hnotempty : (List.range' (offsets.getD c 0)
        (offsets.getD (c + 1) 0 - offsets.getD c 0)).isEmpty = false := by
      rw [hN, List.range'_succ]; rfl
    rw [hnotempty]
    simp only [Bool.false_eq_true, if_false, List.foldl_cons, List.foldl_nil]
    rw [smooth_range_inside _ _ _ _ _ _ _ _ p (by simp only; omega) hp1 (by simp only; omega)]
    have hslice : slice mid (IndexRange.mk (offsets.getD c 0)
        (offsets.getD (c + 1) 0 - offsets.getD c 0)) =
        slice data (points_by_curve_at offsets c) := by
      apply slice_congr
      intro q hq1 hq2
      exact hmid_eq q hq1 (by simp only at hq2; omega)
    rw [hslice]
  · intro c' hc'
    rw [List.mem_range'_1] at hc'
    exact not_mem_from_bools_of_ne offsets hsorted selection c c' p (by omega) (by omega)
      (by omega) hp1 hp2

/-- The body of the step loop reads `src` at `before`, `after` and `index` only. -/
theorem blur_point_congr (src src' : List ℚ) (smooth_ends is_cyclic : Bool) (w w2 : ℚ)
    (offset : ℤ) (index : ℕ) (d t : ℚ) (hlen : src.length = src'.length)
    (hc : src.getD index 0 = src'.getD index 0)
    (hb : src.getD (before_index is_cyclic src.length index offset).toNat 0 =
      src'.getD (before_index is_cyclic src.length index offset).toNat 0)
    (ha : src.getD (after_index is_cyclic src.length index offset).toNat 0 =
      src'.getD (after_index is_cyclic src.length index offset).toNat 0) :
    blur_point src smooth_ends is_cyclic w w2 offset index d t =
      blur_point src' smooth_ends is_cyclic w w2 offset index d t := by
  simp only [blur_point, ← hlen, hc, hb, ha]

/-- A cyclic span read at `index` and at its neighbours around the cycle only. -/
theorem point_after_cyclic_congr (m : LibM) (src src' : List ℚ) (iterations : ℕ)
    (smooth_ends keep_shape : Bool) (index : ℕ) (d0 : ℚ)
    (hlen : src.length = src'.length) (hi : index < src.length)
    (hagree : agree_on_cyclic_neighbors src src' 0 src.length index iterations)
    (k : ℕ) (hk : k ≤ iterations) :
    point_after m src iterations smooth_ends keep_shape true index d0 k =
      point_after m src' iterations smooth_ends keep_shape true index d0 k := by
  induction k with
  | zero => rfl
  | succ k ih =>
    simp only [point_after]
    rw [ih (by omega)]
    obtain ⟨h0, hk'⟩ := hagree
    simp only [Nat.zero_add] at h0 hk'
    have hoff : ((iterations : ℤ) - (k : ℤ)) = ((iterations - k : ℕ) : ℤ) := by omega
    obtain ⟨hb, ha⟩ := hk' (iterations - k) (by omega) (by omega)
    apply blur_point_congr _ _ _ _ _ _ _ _ _ _ hlen h0
    · rw [before_index_cyclic _ _ _ (by omega), hoff]; exact hb
    · rw [after_index_cyclic _ _ _ (by omega) (by omega), hoff]; exact ha

theorem gaussian_blur_1D_cyclic_congr (m : LibM) (src src' : List ℚ) (iterations : ℕ)
    (influence : ℚ) (smooth_ends keep_shape : Bool) (index : ℕ)
    (hlen : src.length = src'.length) (hi : index < src.length)
    (hagree : agree_on_cyclic_neighbors src src' 0 src.length index iterations) :
    (gaussian_blur_1D m src iterations influence smooth_ends keep_shape true src).getD index 0 =
      (gaussian_blur_1D m src' iterations influence smooth_ends keep_shape true src').getD
        index 0 := by
  have h0 : src.getD index 0 = src'.getD index 0 := by simpa using hagree.1
  by_cases h1 : src.length = 1
  · unfold gaussian_blur_1D
    rw [if_pos h1, if_pos (by omega)]
    exact h0
  · have hfix : ∀ n : ℕ, is_end_and_fixed smooth_ends true ((n : ℤ) - 1) index = false := by
      intro n; simp [is_end_and_fixed]
    rw [gaussian_blur_1D_free _ _ _ _ _ _ _ _ _ hi h1 (hfix _),
      gaussian_blur_1D_free _ _ _ _ _ _ _ _ _ (by omega) (by omega) (hfix _),
      point_after_cyclic_congr m src src' iterations smooth_ends keep_shape index 0 hlen hi hagree
        iterations le_rfl,
      final_total_weight_congr m src src' src src' iterations smooth_ends keep_shape true index
        hlen hi (by omega) (hfix _), h0]

theorem smooth_curve_attribute_length_pos_of_offsets (data : List ℚ) (offsets : List ℕ)
    (hdata : ∀ o ∈ offsets, o ≤ data.length) (a : ℕ) (ha : a < offsets.length) :
    offsets.getD a 0 ≤ data.length := by
  apply hdata
  rw [List.getD_eq_getElem _ _ ha]
  exact List.getElem_mem _

/-- A cyclic curve whose points are all selected is read around the closed curve only:
for every curves geometry with sorted offsets inside the attribute buffer,
every cyclic curve `c` of it with `N` points all of which are selected, and every point `i`
of that curve, the new value of point `i` is determined by the original values of that
curve's points at the positions `(i - k) mod N` and `(i + k) mod N` for
`k = 1, ..., iterations` and of point `i` itself: two buffers that agree at these positions
give the same new value. -/
theorem smooth_curve_attribute_cyclic_neighbors (m : LibM) (curves_num : ℕ)
    (data data' : List ℚ) (offsets : List ℕ) (selection cyclic : ℕ → Bool)
    (iterations : ℕ) (influence : ℚ) (smooth_ends keep_shape : Bool) (c i : ℕ)
    (hsorted : offsets.Pairwise (· ≤ ·)) (hnum : curves_num + 1 = offsets.length)
    (hdata : ∀ o ∈ offsets, o ≤ data.length) (hlen : data'.length = data.length)
    (hc : c < curves_num) (hcyc : cyclic c = true)
    (hsel : ∀ q, offsets.getD c 0 ≤ q → q < offsets.getD (c + 1) 0 → selection q = true)
    (hi : offsets.getD c 0 + i < offsets.getD (c + 1) 0)
    (hagree : agree_on_cyclic_neighbors data data' (offsets.getD c 0)
      (offsets.getD (c + 1) 0 - offsets.getD c 0) i iterations) :
    (smooth_curve_attribute m curves_num data offsets selection cyclic iterations influence
      smooth_ends keep_shape)[offsets.getD c 0 + i]? =
    (smooth_curve_attribute m curves_num data' offsets selection cyclic iterations influence
      smooth_ends keep_shape)[offsets.getD c 0 + i]? := by
  have hfit := smooth_curve_attribute_length_pos_of_offsets data offsets hdata (c + 1)
    (by omega)
  rw [smooth_curve_attribute_selected_curve m curves_num data offsets selection cyclic
      iterations influence smooth_ends keep_shape c _ hsorted hnum hdata hc hsel (by omega) hi,
    smooth_curve_attribute_selected_curve m curves_num data' offsets selection cyclic
      iterations influence smooth_ends keep_shape c _ hsorted hnum (by rw [hlen]; exact hdata)
      hc hsel (by omega) hi, hcyc]
  have hsz : (points_by_curve_at offsets c).size =
      offsets.getD (c + 1) 0 - offsets.getD c 0 := rfl
  have hst : (points_by_curve_at offsets c).start = offsets.getD c 0 := rfl
  have hl1 : (slice data (points_by_curve_at offsets c)).length =
      offsets.getD (c + 1) 0 - offsets.getD c 0 := by
    rw [slice_length, hsz, hst]; omega
  have hl2 : (slice data' (points_by_curve_at offsets c)).length =
      offsets.getD (c + 1) 0 - offsets.getD c 0 := by
    rw [slice_length, hsz, hst]; omega
  have hidx : offsets.getD c 0 + i - offsets.getD c 0 = i := by omega
  rw [hidx]
  apply getElem?_eq_of_getD_eq _ _ _
    (by rw [gaussian_blur_1D_length, hl1]; omega) (by rw [gaussian_blur_1D_length, hl2]; omega)
  apply gaussian_blur_1D_cyclic_congr _ _ _ _ _ _ _ _ (by rw [hl1, hl2]) (by rw [hl1]; omega)
  rw [hl1]
  obtain ⟨h0, hk⟩ := hagree
  have hN : (0 : ℤ) < ((offsets.getD (c + 1) 0 - offsets.getD c 0 : ℕ) : ℤ) := by omega
  refine ⟨?_, ?_⟩
  · rw [Nat.zero_add, slice_getD _ _ _ (by rw [hsz]; omega),
      slice_getD _ _ _ (by rw [hsz]; omega), hst]
    exact h0
  · intro k hk1 hk2
    obtain ⟨hb, ha⟩ := hk k hk1 hk2
    have b1 := Int.emod_nonneg ((i : ℤ) - (k : ℤ)) (ne_of_gt hN)
    have b2 := Int.emod_lt_of_pos ((i : ℤ) - (k : ℤ)) hN
    have a1 := Int.emod_nonneg ((i : ℤ) + (k : ℤ)) (ne_of_gt hN)
    have a2 := Int.emod_lt_of_pos ((i : ℤ) + (k : ℤ)) hN
    rw [Nat.zero_add, Nat.zero_add, slice_getD _ _ _ (by rw [hsz]; omega),
      slice_getD _ _ _ (by rw [hsz]; omega), slice_getD _ _ _ (by rw [hsz]; omega),
      slice_getD _ _ _ (by rw [hsz]; omega), hst]
    exact ⟨hb, ha⟩

theorem gaussian_blur_1D_eval_zeros (m : LibM) (smooth_ends : Bool) :
    gaussian_blur_1D m [0, 0, 0] 1 1 smooth_ends false true [0, 0, 0] = [0, 0, 0] := by
  have e1 : Int.tmod 1 3 = 1 := by decide
  have e2 : Int.tmod 2 3 = 2 := by decide
  have e3 : Int.tmod (-1) 3 = -1 := by decide
  have e4 : Int.tdiv 1 4 = 0 := by decide
  have e5 : Int.tmod 3 3 = 0 := by decide
  have e6 : Int.tmod 4 3 = 1 := by decide
  simp [gaussian_blur_1D, final_total_weight, blur_loop, blur_init, blur_step, blur_point,
    List.range, List.range.loop, is_end_and_fixed, before_index, after_index, w_before_at,
    w_after_at, n_half, w_init, w2_init, w2_init_checked, e1, e2, e3, e4, e5, e6]

theorem gaussian_blur_1D_eval_closed_curve (m : LibM) (smooth_ends : Bool) :
    gaussian_blur_1D m [0, 0, 0, 9] 1 1 smooth_ends false true [0, 0, 0, 9] =
      [126 / 43, 0, 126 / 43, 135 / 43] := by
  have e1 : Int.tmod 1 4 = 1 := by decide
  have e2 : Int.tmod 2 4 = 2 := by decide
  have e3 : Int.tmod (-1) 4 = -1 := by decide
  have e4 : Int.tdiv 1 4 = 0 := by decide
  have e5 : Int.tmod 3 4 = 3 := by decide
  have e6 : Int.tmod 4 4 = 0 := by decide
  have e7 : Int.tmod 5 4 = 1 := by decide
  have e8 : Int.tmod 6 4 = 2 := by decide
  simp [gaussian_blur_1D, final_total_weight, blur_loop, blur_init, blur_step, blur_point,
    List.range, List.range.loop, is_end_and_fixed, before_index, after_index, w_before_at,
    w_after_at, n_half, w_init, w2_init, w2_init_checked, e1, e2, e3, e4, e5, e6, e7, e8]
  norm_num

/-- Claim C5 (evaluation at the failing input). One cyclic curve of four points, one
iteration, the first three points selected. Point `0` is selected, and its neighbours around
the closed curve are the points `3` and `1`. The buffers `0, 0, 0, 0` and `0, 0, 1, 0` agree
at the points `0`, `3` and `1`, and yet point `0` gets the new value `0` from the first and
`14/43` from the second: the value of point `2` is combined into it. The buffer
`0, 0, 0, 9` is returned as it is: the value `9` of the neighbour `3` is not combined into
point `0`. With all four points selected the same buffer gives point `0` the value
`126/43`, which has the value of point `3` in it. The run `0, 1, 2` of selected points is
blurred as a closed sequence of its own. -/
theorem smooth_curve_attribute_selected_run_wraps_in_run :
    (fun p : ℕ => decide (p < 3)) 0 = true ∧
    agree_on_cyclic_neighbors [0, 0, 0, 0] [0, 0, 1, 0] 0 4 0 1 ∧
    smooth_curve_attribute libm_rational 1 [0, 0, 0, 0] [0, 4] (fun p => decide (p < 3))
      (fun _ => true) 1 1 false false = [0, 0, 0, 0] ∧
    smooth_curve_attribute libm_rational 1 [0, 0, 1, 0] [0, 4] (fun p => decide (p < 3))
      (fun _ => true) 1 1 false false = [14 / 43, 14 / 43, 15 / 43, 0] ∧
    smooth_curve_attribute libm_rational 1 [0, 0, 0, 9] [0, 4] (fun p => decide (p < 3))
      (fun _ => true) 1 1 false false = [0, 0, 0, 9] ∧
    smooth_curve_attribute libm_rational 1 [0, 0, 0, 9] [0, 4] (fun _ => true)
      (fun _ => true) 1 1 false false = [126 / 43, 0, 126 / 43, 135 / 43] := by
  have hmask : from_bools (points_by_curve_at [0, 4] 0) (fun p => decide (p < 3)) =
      [0, 1, 2] := by decide
  have hmask4 : from_bools (points_by_curve_at [0, 4] 0) (fun _ => true) =
      [0, 1, 2, 3] := by decide
  have hranges : to_ranges [0, 1, 2] = [{ start := 0, size := 3 }] := by decide
  have hranges4 : to_ranges [0, 1, 2, 3] = [{ start := 0, size := 4 }] := by decide
  have hr : List.range 1 = [0] := rfl
  have h1 : smooth_curve_attribute libm_rational 1 [0, 0, 0, 0] [0, 4]
      (fun p => decide (p < 3)) (fun _ => true) 1 1 false false = [0, 0, 0, 0] := by
    simp only [smooth_curve_attribute, smooth_curve, hmask, hranges, hr,
      List.foldl_cons, List.foldl_nil, smooth_range, List.isEmpty_cons, Bool.false_eq_true,
      if_false]
    have hs : slice [0, 0, 0, 0] { start := 0, size := 3 } = [0, 0, 0] := by simp [slice]
    rw [hs, gaussian_blur_1D_eval_zeros]
    simp [write_slice]
  have h2 : smooth_curve_attribute libm_rational 1 [0, 0, 1, 0] [0, 4]
      (fun p => decide (p < 3)) (fun _ => true) 1 1 false false =
      [14 / 43, 14 / 43, 15 / 43, 0] := by
    simp only [smooth_curve_attribute, smooth_curve, hmask, hranges, hr,
      List.foldl_cons, List.foldl_nil, smooth_range, List.isEmpty_cons, Bool.false_eq_true,
      if_false]
    have hs : slice [0, 0, 1, 0] { start := 0, size := 3 } = [0, 0, 1] := by simp [slice]
    rw [hs, gaussian_blur_1D_eval_one_iteration]
    simp [write_slice]
  have h3 : smooth_curve_attribute libm_rational 1 [0, 0, 0, 9] [0, 4]
      (fun p => decide (p < 3)) (fun _ => true) 1 1 false false = [0, 0, 0, 9] := by
    simp only [smooth_curve_attribute, smooth_curve, hmask, hranges, hr,
      List.foldl_cons, List.foldl_nil, smooth_range, List.isEmpty_cons, Bool.false_eq_true,
      if_false]
    have hs : slice [0, 0, 0, 9] { start := 0, size := 3 } = [0, 0, 0] := by simp [slice]
    rw [hs, gaussian_blur_1D_eval_zeros]
    simp [write_slice]
  have h4 : smooth_curve_attribute libm_rational 1 [0, 0, 0, 9] [0, 4]
      (fun _ => true) (fun _ => true) 1 1 false false =
      [126 / 43, 0, 126 / 43, 135 / 43] := by
    simp only [smooth_curve_attribute, smooth_curve, hmask4, hranges4, hr,
      List.foldl_cons, List.foldl_nil, smooth_range, List.isEmpty_cons, Bool.false_eq_true,
      if_false]
    have hs : slice [0, 0, 0, 9] { start := 0, size := 4 } = [0, 0, 0, 9] := by simp [slice]
    rw [hs, gaussian_blur_1D_eval_closed_curve]
    simp [write_slice]
  refine ⟨by decide, ⟨rfl, ?_⟩, h1, h2, h3, h4⟩
  intro k hk1 hk2
  have hk : k = 1 := by omega
  subst hk
  have e1 : ((0 : ℕ) : ℤ) - ((1 : ℕ) : ℤ) = -1 := by norm_num
  have e2 : ((0 : ℕ) : ℤ) + ((1 : ℕ) : ℤ) = 1 := by norm_num
  have e3 : ((-1 : ℤ) % ((4 : ℕ) : ℤ)).toNat = 3 := by decide
  have e4 : ((1 : ℤ) % ((4 : ℕ) : ℤ)).toNat = 1 := by decide
  rw [e1, e2, e3, e4]
  exact ⟨rfl, rfl⟩

/-! ## The operator callback -/

/-- Claim C6. Early-out when nothing is to be smoothed: for every context (every grease
pencil object) and every value of `iterations`, `factor`, `keep_shape` and `smooth_ends`,
when `smooth_position`, `smooth_radius` and `smooth_opacity` are all false
`grease_pencil_stroke_smooth_exec` returns `OPERATOR_FINISHED` and leaves the context as it
is: every attribute of every drawing is unchanged and neither the geometry recalc tag nor
the notifier is issued. -/
theorem grease_pencil_stroke_smooth_exec_nothing_to_smooth (m : LibM) (C : Context)
    (op : SmoothProperties) (hposition : op.smooth_position = false)
    (hradius : op.smooth_radius = false) (hopacity : op.smooth_opacity = false) :
    grease_pencil_stroke_smooth_exec m C op = (OperatorReturn.OPERATOR_FINISHED, C) := by
  simp [grease_pencil_stroke_smooth_exec, hposition, hradius, hopacity]

/-- Witness for claim C6: the example context, ten iterations, all three switches off. -/
theorem grease_pencil_stroke_smooth_exec_nothing_to_smooth_witness :
    grease_pencil_stroke_smooth_exec libm_rational example_context
        ⟨10, 1, false, false, false, false, false⟩ =
      (OperatorReturn.OPERATOR_FINISHED, example_context) :=
  grease_pencil_stroke_smooth_exec_nothing_to_smooth libm_rational example_context
    ⟨10, 1, false, false, false, false, false⟩ rfl rfl rfl

/-! ## The module `gpu.state` -/

theorem parse_blend_str (s : String) (st : PyState) :
    PyC_ParseStringEnum pygpu_state_blend_items (PyObject.str s) st =
      if s = "NONE" then (some eGPUBlend.GPU_BLEND_NONE, st)
      else if s = "ALPHA" then (some eGPUBlend.GPU_BLEND_ALPHA, st)
      else if s = "ALPHA_PREMULT" then (some eGPUBlend.GPU_BLEND_ALPHA_PREMULT, st)
      else if s = "ADDITIVE" then (some eGPUBlend.GPU_BLEND_ADDITIVE, st)
      else if s = "ADDITIVE_PREMULT" then (some eGPUBlend.GPU_BLEND_ADDITIVE_PREMULT, st)
      else if s = "MULTIPLY" then (some eGPUBlend.GPU_BLEND_MULTIPLY, st)
      else if s = "SUBTRACT" then (some eGPUBlend.GPU_BLEND_SUBTRACT, st)
      else if s = "INVERT" then (some eGPUBlend.GPU_BLEND_INVERT, st)
      else (Option.none,
        { st with error := some (PyExc.ValueError, "expected a string in the items") }) := by
  have hb : ∀ name : String, (name == s) = decide (s = name) := by
    intro name
    by_cases h : s = name
    · subst h; simp
    · rw [decide_eq_false h]
      exact beq_eq_false_iff_ne.mpr (Ne.symm h)
  simp only [PyC_ParseStringEnum, pygpu_state_blend_items, List.find?, hb]
  split_ifs <;> simp_all

/-- Claim C8. `blend_set` accepts exactly the documented mode names: for every argument and
every state, `blend_set` succeeds (returns `None`) if and only if the argument is one of the
strings `NONE`, `ALPHA`, `ALPHA_PREMULT`, `ADDITIVE`, `ADDITIVE_PREMULT`, `MULTIPLY`,
`SUBTRACT`, `INVERT`; it then gives the value of the table entry with that name to
`GPU_blend` and sets no error; for every other argument it returns an error (`NULL`, with a
`ValueError` set) and the GPU state is unchanged. -/
theorem blend_set_accepts_documented_modes (st : PyState) (value : PyObject) :
    ((pygpu_state_blend_set st value).1 = some PyObject.none ↔
      ∃ name ∈ blend_set_documented_modes, value = PyObject.str name) ∧
    (∀ item ∈ pygpu_state_blend_items, value = PyObject.str item.2 →
      pygpu_state_blend_set st value =
        (some PyObject.none, { st with gpu := { st.gpu with blend := item.1 } })) ∧
    ((¬ ∃ name ∈ blend_set_documented_modes, value = PyObject.str name) →
      (pygpu_state_blend_set st value).1 = Option.none ∧
      (pygpu_state_blend_set st value).2.gpu = st.gpu ∧
      ((pygpu_state_blend_set st value).2.error).map Prod.fst = some PyExc.ValueError) := by
  cases value with
  | str s =>
    simp only [pygpu_state_blend_set, parse_blend_str, blend_set_documented_modes,
      PyObject.str.injEq]
    refine ⟨?_, ?_, ?_⟩
    · split_ifs <;> simp_all
    · intro item hitem hs
      simp only [pygpu_state_blend_items, List.mem_cons, List.mem_singleton, List.not_mem_nil,
        or_false] at hitem
      rcases hitem with h | h | h | h | h | h | h | h <;> subst h <;> subst hs <;> rfl
    · intro hnot
      split_ifs <;> simp_all
  | none => simp [pygpu_state_blend_set, PyC_ParseStringEnum]
  | bool b => simp [pygpu_state_blend_set, PyC_ParseStringEnum]
  | long n => simp [pygpu_state_blend_set, PyC_ParseStringEnum]
  | float q => simp [pygpu_state_blend_set, PyC_ParseStringEnum]

/-- Claim C7. The enum-string mapping round-trips: for every entry of the blend table
(`NONE`, `ALPHA`, `ALPHA_PREMULT`, `ADDITIVE`, `ADDITIVE_PREMULT`, `MULTIPLY`, `SUBTRACT`,
`INVERT`) and every state, `blend_set` with the name of the entry succeeds and `blend_get`
called right after it returns that same name (and leaves the state as it is); likewise
`depth_test_get` after `depth_test_set` for every entry of the depth test table (`NONE`,
`ALWAYS`, `LESS`, `LESS_EQUAL`, `EQUAL`, `GREATER`, `GREATER_EQUAL`). The GPU getter
returns the value last given to the GPU setter and the enum constants are pairwise
distinct. -/
theorem blend_and_depth_test_round_trip (st : PyState) :
    (∀ item ∈ pygpu_state_blend_items,
      (pygpu_state_blend_set st (PyObject.str item.2)).1 = some PyObject.none ∧
      pygpu_state_blend_get (pygpu_state_blend_set st (PyObject.str item.2)).2 =
        (some (PyObject.str item.2), (pygpu_state_blend_set st (PyObject.str item.2)).2)) ∧
    (∀ item ∈ pygpu_state_depthtest_items,
      (pygpu_state_depth_test_set st (PyObject.str item.2)).1 = some PyObject.none ∧
      pygpu_state_depth_test_get (pygpu_state_depth_test_set st (PyObject.str item.2)).2 =
        (some (PyObject.str item.2),
          (pygpu_state_depth_test_set st (PyObject.str item.2)).2)) := by
  constructor
  · intro item hitem
    simp only [pygpu_state_blend_items, List.mem_cons, List.mem_singleton, List.not_mem_nil,
      or_false] at hitem
    rcases hitem with h | h | h | h | h | h | h | h <;> subst h <;> exact ⟨rfl, rfl⟩
  · intro item hitem
    simp only [pygpu_state_depthtest_items, List.mem_cons, List.mem_singleton,
      List.not_mem_nil, or_false] at hitem
    rcases hitem with h | h | h | h | h | h | h <;> subst h <;> exact ⟨rfl, rfl⟩

/-- Claim C9 (evaluation at the failing input). `clip_distances_set(7)`: the `ValueError`
`too many distances enabled, max is 6` is set, but the call goes on, gives `7` to
`GPU_clip_distances` and returns `None`. For an argument from `0` to `6` the call returns
`None`, sets exactly that number and sets no error. -/
theorem clip_distances_set_above_max_still_sets (st : PyState) :
    pygpu_state_clip_distances_set st (PyObject.long 7) =
      (some PyObject.none,
        { gpu := { st.gpu with clip_distances := 7 }
          error := some (PyExc.ValueError, "too many distances enabled, max is 6") }) ∧
    ∀ n : ℕ, n ≤ 6 →
      pygpu_state_clip_distances_set st (PyObject.long n) =
        (some PyObject.none, { st with gpu := { st.gpu with clip_distances := n } }) := by
  constructor
  · rfl
  · intro n hn
    interval_cases n <;> rfl

/-- Claim C10 (evaluation at the failing entry). Of the twenty entries of
`pygpu_state__tp_methods` exactly one is registered under a name that is not the name its
doc string documents: the function documented as `framebuffer_active_get` is registered as
`active_framebuffer_get`, so the module has no function `framebuffer_active_get`. -/
theorem framebuffer_active_get_registered_under_other_name :
    pygpu_state__tp_methods.length = 20 ∧
    (pygpu_state__tp_methods.filter
      (fun method => documented_name method.ml_doc != some method.ml_name)).map
        (fun method => (method.ml_name, documented_name method.ml_doc)) =
      [("active_framebuffer_get", some "framebuffer_active_get")] ∧
    find_method pygpu_state__tp_methods "framebuffer_active_get" = Option.none ∧
    (find_method pygpu_state__tp_methods "active_framebuffer_get").map PyMethodDef.ml_meth =
      some "pygpu_state_framebuffer_active_get" := by
  refine ⟨rfl, ?_, ?_, ?_⟩ <;> decide

/-! ## The weight recurrence -/

/-- Without `keep_shape`, `n_half` is `t*t/4 + 2*t + 12` in natural numbers. -/
theorem n_half_false_eq (t : ℕ) :
    n_half false (t : ℤ) = ((t * t / 4 + 2 * t + 12 : ℕ) : ℤ) := by
  simp only [n_half, Bool.false_eq_true, if_false]
  have h : (t : ℤ) * (t : ℤ) = ((t * t : ℕ) : ℤ) := by push_cast; ring
  rw [h, Int.tdiv_eq_ediv (by omega) (by omega)]
  generalize t * t = u
  omega

/-- The number `n_half` is larger than every offset. -/
theorem lt_n_half_false (t : ℕ) : 2 * t + 12 ≤ t * t / 4 + 2 * t + 12 := by
  omega

/-- The weights after `j` passes, without `keep_shape`: a quotient of binomial coefficients
of the row `2 * n_half`, and `w2` stays zero. -/
theorem weights_after_binomial (m : LibM) (t nh : ℕ) (hnh : nh = t * t / 4 + 2 * t + 12)
    (j : ℕ) (hj : j ≤ t) :
    (weights_after m false t j).1 =
      (Nat.choose (2 * nh) (nh + (t - j)) : ℚ) / (Nat.choose (2 * nh) (nh + t) : ℚ) ∧
    (weights_after m false t j).2 = 0 := by
  have hbig : 2 * t + 12 ≤ nh := by rw [hnh]; exact lt_n_half_false t
  induction j with
  | zero =>
    have hpos : 0 < Nat.choose (2 * nh) (nh + t) := Nat.choose_pos (by omega)
    have hne : (Nat.choose (2 * nh) (nh + t) : ℚ) ≠ 0 := by exact_mod_cast hpos.ne'
    simp only [weights_after, w_init, w2_init, w2_init_checked, Bool.false_eq_true, if_false,
      Nat.sub_zero, Option.getD_some]
    exact ⟨(div_self hne).symm, trivial⟩
  | succ j ih =>
    obtain ⟨ih1, ih2⟩ := ih (by omega)
    obtain ⟨r, hr⟩ : ∃ r, t = j + 1 + r := ⟨t - (j + 1), by omega⟩
    obtain ⟨q, hq⟩ : ∃ q, nh = r + 1 + q := ⟨nh - (r + 1), by omega⟩
    have e1 : t - j = r + 1 := by omega
    have e2 : t - (j + 1) = r := by omega
    have hch := Nat.choose_succ_right_eq (2 * nh) (nh + r)
    have e3 : 2 * nh - (nh + r) = q + 1 := by omega
    rw [e3] at hch
    have hchq : (Nat.choose (2 * nh) (nh + r + 1) : ℚ) * ((nh : ℚ) + (r : ℚ) + 1) =
        (Nat.choose (2 * nh) (nh + r) : ℚ) * ((q : ℚ) + 1) := by exact_mod_cast hch
    have hq1 : ((q : ℚ) + 1) ≠ 0 := by positivity
    have hpos : 0 < Nat.choose (2 * nh) (nh + t) := Nat.choose_pos (by omega)
    have hne : (Nat.choose (2 * nh) (nh + t) : ℚ) ≠ 0 := by exact_mod_cast hpos.ne'
    simp only [weights_after, ih1, ih2, zero_mul, and_true, n_half_false_eq, ← hnh, e1, e2]
    have ea : (((nh : ℤ) + ((t : ℤ) - (j : ℤ)) : ℤ) : ℚ) = (nh : ℚ) + (r : ℚ) + 1 := by
      rw [hr]; push_cast; ring
    have eb : (((nh : ℤ) + 1 - ((t : ℤ) - (j : ℤ)) : ℤ) : ℚ) = (q : ℚ) + 1 := by
      rw [hr, hq]; push_cast; ring
    rw [ea, eb, ← Nat.add_assoc]
    rw [div_mul_div_comm, div_eq_div_iff (mul_ne_zero hne hq1) hne]
    linear_combination (Nat.choose (2 * nh) (nh + t) : ℚ) * hchq

/-- Claim C12. The weight recurrence produces binomial coefficients: with `keep_shape` off,
for every number of iterations `t` and `nh = n_half = t*t/4 + 2*t + 12` (integer division),
the base weight `w` that the pass with offset `k` uses (`1 ≤ k ≤ t`; it is the pass after
`t - k` passes, since `offset = iterations - step`) equals
`nCr(2*nh, nh + k) / nCr(2*nh, nh + t)`, the weight `w2` is zero, and the divisor
`n_half + 1 - offset` of the recurrence is positive; the centre weight that the
normalization adds (offset `0`, after all `t` passes) equals
`nCr(2*nh, nh) / nCr(2*nh, nh + t)`. -/
theorem weight_recurrence_binomial (m : LibM) (src dst : List ℚ) (t nh : ℕ)
    (smooth_ends is_cyclic : Bool) (hnh : nh = t * t / 4 + 2 * t + 12) :
    n_half false (t : ℤ) = (nh : ℤ) ∧
    (∀ k : ℕ, 1 ≤ k → k ≤ t →
      ((List.range (t - k)).foldl (blur_step src t smooth_ends false is_cyclic)
        (blur_init m src t smooth_ends false is_cyclic dst)).w =
          (Nat.choose (2 * nh) (nh + k) : ℚ) / (Nat.choose (2 * nh) (nh + t) : ℚ) ∧
      ((List.range (t - k)).foldl (blur_step src t smooth_ends false is_cyclic)
        (blur_init m src t smooth_ends false is_cyclic dst)).w2 = 0 ∧
      0 < n_half false (t : ℤ) + 1 - (k : ℤ)) ∧
    (blur_loop m src t smooth_ends false is_cyclic dst).w =
      (Nat.choose (2 * nh) nh : ℚ) / (Nat.choose (2 * nh) (nh + t) : ℚ) ∧
    (blur_loop m src t smooth_ends false is_cyclic dst).w2 = 0 := by
  have hn : n_half false (t : ℤ) = (nh : ℤ) := by rw [hnh]; exact n_half_false_eq t
  have hbig : 2 * t + 12 ≤ nh := by rw [hnh]; exact lt_n_half_false t
  refine ⟨hn, ?_, ?_, ?_⟩
  · intro k hk1 hk2
    obtain ⟨-, -, -, hw, hw2⟩ :=
      foldl_blur_step m src t smooth_ends false is_cyclic dst (t - k)
    obtain ⟨h1, h2⟩ := weights_after_binomial m t nh hnh (t - k) (by omega)
    have e : t - (t - k) = k := by omega
    rw [e] at h1
    refine ⟨?_, ?_, ?_⟩
    · rw [← h1]; exact hw
    · rw [← h2]; exact hw2
    · rw [hn]; omega
  · obtain ⟨-, -, -, hw, -⟩ := foldl_blur_step m src t smooth_ends false is_cyclic dst t
    obtain ⟨h1, -⟩ := weights_after_binomial m t nh hnh t le_rfl
    rw [Nat.sub_self, Nat.add_zero] at h1
    rw [← h1]; exact hw
  · obtain ⟨-, -, -, -, hw2⟩ := foldl_blur_step m src t smooth_ends false is_cyclic dst t
    obtain ⟨-, h2⟩ := weights_after_binomial m t nh hnh t le_rfl
    rw [← h2]; exact hw2

/-- Witness for claim C12: one iteration, `n_half = 14`; the centre weight is
`nCr(28, 14) / nCr(28, 15)`. -/
theorem weight_recurrence_binomial_witness :
    14 = 1 * 1 / 4 + 2 * 1 + 12 ∧
    n_half false ((1 : ℕ) : ℤ) = ((14 : ℕ) : ℤ) ∧
    (blur_loop libm_rational [0, 0, 1] 1 false false true [0, 0, 1]).w =
      (Nat.choose (2 * 14) 14 : ℚ) / (Nat.choose (2 * 14) (14 + 1) : ℚ) :=
  ⟨rfl,
    (weight_recurrence_binomial libm_rational [0, 0, 1] [0, 0, 1] 1 14 false true rfl).1,
    (weight_recurrence_binomial libm_rational [0, 0, 1] [0, 0, 1] 1 14 false true rfl).2.2.1⟩

/-! ## The neighbour reads -/

/-- Claim C13. Every neighbour read is in bounds: for every `total_points`, every `index`
from `0` up to, not including, `total_points` (so `total_points ≥ 1`) and every offset from
`1` on (the offsets `1, ..., iterations` of the passes, also those larger than
`total_points`), the indices `before` and `after` used to read `src` lie from `0` up to,
not including, `total_points`, in cyclic and in open mode; in cyclic mode the expressions
with the truncating `%` equal the residues `(index - offset) mod total_points` and
`(index + offset) mod total_points` that are not negative, and in open mode they equal
`max(index - offset, 0)` and `min(index + offset, total_points - 1)`. -/
theorem neighbor_reads_in_bounds (total_points index offset : ℤ)
    (hindex : 0 ≤ index) (hlt : index < total_points) (hoffset : 1 ≤ offset) :
    (∀ is_cyclic : Bool,
      0 ≤ before_index is_cyclic total_points index offset ∧
      before_index is_cyclic total_points index offset < total_points ∧
      0 ≤ after_index is_cyclic total_points index offset ∧
      after_index is_cyclic total_points index offset < total_points ∧
      (before_index is_cyclic total_points index offset).toNat < total_points.toNat ∧
      (after_index is_cyclic total_points index offset).toNat < total_points.toNat) ∧
    before_index true total_points index offset = (index - offset) % total_points ∧
    after_index true total_points index offset = (index + offset) % total_points ∧
    before_index false total_points index offset = max (index - offset) 0 ∧
    after_index false total_points index offset = min (index + offset) (total_points - 1) := by
  refine ⟨?_, before_index_cyclic _ _ _ (by omega),
    after_index_cyclic _ _ _ (by omega) (by omega), rfl, rfl⟩
  intro is_cyclic
  have hb := before_index_bounds is_cyclic total_points index offset hindex hlt (by omega)
  have ha := after_index_bounds is_cyclic total_points index offset hindex hlt (by omega)
  refine ⟨hb.1, hb.2, ha.1, ha.2, ?_, ?_⟩ <;> omega

/-- Witness for claim C13: three points, index `0`, offset `5`. -/
theorem neighbor_reads_in_bounds_witness :
    (0 : ℤ) ≤ 0 ∧ (0 : ℤ) < 3 ∧ (1 : ℤ) ≤ 5 ∧
    before_index true 3 0 5 = (0 - 5) % 3 ∧
    after_index true 3 0 5 = (0 + 5) % 3 ∧
    before_index false 3 0 5 = max (0 - 5) 0 ∧
    after_index false 3 0 5 = min (0 + 5) (3 - 1) ∧
    (before_index true 3 0 5).toNat < (3 : ℤ).toNat :=
  ⟨by decide, by decide, by decide,
    (neighbor_reads_in_bounds 3 0 5 (by decide) (by decide) (by decide)).2.1,
    (neighbor_reads_in_bounds 3 0 5 (by decide) (by decide) (by decide)).2.2.1,
    (neighbor_reads_in_bounds 3 0 5 (by decide) (by decide) (by decide)).2.2.2.1,
    (neighbor_reads_in_bounds 3 0 5 (by decide) (by decide) (by decide)).2.2.2.2,
    ((neighbor_reads_in_bounds 3 0 5 (by decide) (by decide) (by decide)).1 true).2.2.2.2.1⟩

/-! ## The total weight without `keep_shape` -/

/-- Where the general computation gives a number, it is the number `gaussian_blur_1D`
writes for a span of more than one point. -/
theorem gaussian_blur_1D_general_eq_some (m : LibM) (src : List ℚ) (iterations : ℕ)
    (influence : ℚ) (smooth_ends keep_shape is_cyclic : Bool) (dst : List ℚ) (i : ℕ) (v : ℚ)
    (h1 : src.length ≠ 1) (hi : i < dst.length)
    (hv : (gaussian_blur_1D_general m src iterations influence smooth_ends keep_shape is_cyclic
      dst).getD i none = some v) :
    (gaussian_blur_1D m src iterations influence smooth_ends keep_shape is_cyclic dst).getD
      i 0 = v := by
  unfold gaussian_blur_1D
  rw [if_neg h1]
  unfold gaussian_blur_1D_general at hv
  simp only [] at hv ⊢
  rw [List.getD_eq_getElem _ _ (by simpa using hi)] at hv
  rw [List.getD_eq_getElem _ _ (by simpa using hi)]
  simp only [List.getElem_map, List.getElem_range] at hv ⊢
  split at hv
  · rename_i hfix
    rw [if_pos hfix]
    exact Option.some.inj hv
  · rename_i hfix
    rw [if_neg hfix]
    split at hv
    · exact absurd hv (by simp)
    · split at hv
      · exact absurd hv (by simp)
      · exact Option.some.inj hv

end Blender
